import Mathlib

/-!
Verification development for the opencode-tools session data migration
subsystem.  The TypeScript sources are shallowly embedded: JavaScript
strings are Lean `String`s manipulated through their `Char` lists, the
filesystem record store is a finite association list from segment paths
to file contents, and all I/O functions are rendered as pure functions
over that store.  Ambient configuration (the clock used for archive
dates, the local-filesystem predicates used by the repository resolver
and the remap-target validator) is passed explicitly as parameters,
matching the design notes of the specification.
-/

/-! ## Character and string helpers -/

/-- The dollar character, written via its code point. -/
def dollarChar : Char := Char.ofNat 36

/-- The ampersand character. -/
def ampersandChar : Char := Char.ofNat 38

/-- The backquote character. -/
def backquoteChar : Char := Char.ofNat 96

/-- The single-quote character. -/
def singleQuoteChar : Char := Char.ofNat 39

/-- The hyphen character. -/
def hyphenChar : Char := '-'

/-- JavaScript `s.startsWith(pre)`: `pre` is a prefix of `s`. -/
def strStartsWith (s pre : String) : Bool :=
  pre.data.isPrefixOf s.data

/-- JavaScript `s.endsWith(suf)`: `suf` is a suffix of `s`. -/
def strEndsWith (s suf : String) : Bool :=
  suf.data.isSuffixOf s.data

/-- ECMAScript GetSubstitution for a string (non-regexp) search value: in
the replacement text, a dollar followed by dollar yields a dollar, dollar
ampersand yields the matched text, dollar backquote yields the portion of
the subject before the match, dollar quote yields the portion after the
match; any other dollar sequence is left literally (there are no capture
groups for a string search). -/
def getSubstitution (matched before after : List Char) : List Char → List Char
  | [] => []
  | c :: cs =>
    if c = dollarChar then
      match cs with
      | [] => [c]
      | d :: ds =>
        if d = dollarChar then dollarChar :: getSubstitution matched before after ds
        else if d = ampersandChar then matched ++ getSubstitution matched before after ds
        else if d = backquoteChar then before ++ getSubstitution matched before after ds
        else if d = singleQuoteChar then after ++ getSubstitution matched before after ds
        else c :: getSubstitution matched before after (d :: ds)
    else c :: getSubstitution matched before after cs

/-- Locate the first occurrence of `pat` in `s`, returning the parts of
`s` before and after the match. -/
def findOcc (s pat : List Char) : Option (List Char × List Char) :=
  if pat.isPrefixOf s then some ([], s.drop pat.length)
  else
    match s with
    | [] => none
    | c :: cs => (findOcc cs pat).map (fun r => (c :: r.1, r.2))

/-- JavaScript `s.replace(pat, rep)` with string arguments: replace the
first occurrence of `pat`, processing dollar escapes in `rep` per
GetSubstitution; if `pat` does not occur, return `s` unchanged. -/
def jsStringReplace (s pat rep : String) : String :=
  match findOcc s.data pat.data with
  | none => s
  | some (before, after) =>
      String.mk (before ++ getSubstitution pat.data before after rep.data ++ after)

/-! ## JSON values

A mutual inductive is used so that all functions over JSON trees are
structurally recursive (and hence compute definitionally).  `JsonArr`
and `JsonObj` are the spines of JavaScript arrays and objects; an object
is an ordered list of key/value bindings, as JavaScript preserves
insertion order. -/

mutual

inductive Json where
  | str (s : String)
  | num (n : Int)
  | jbool (b : Bool)
  | jnull
  | arr (items : JsonArr)
  | obj (fields : JsonObj)

inductive JsonArr where
  | nil
  | cons (hd : Json) (tl : JsonArr)

inductive JsonObj where
  | nil
  | cons (key : String) (val : Json) (tl : JsonObj)

end

/-- Property lookup on an object: the value bound to `k`, if any
(objects produced by JSON.parse have unique keys, so first match). -/
def objLookup : JsonObj → String → Option Json
  | .nil, _ => none
  | .cons k v tl, key => if k = key then some v else objLookup tl key

/-- The keys of an object, in order. -/
def objKeys : JsonObj → List String
  | .nil => []
  | .cons k _ tl => k :: objKeys tl

/-- Replace the value bound to `key`, keeping the binding's position, as
a JavaScript property assignment or object spread override does. -/
def objSetField : JsonObj → String → Json → JsonObj
  | .nil, _, _ => .nil
  | .cons k v tl, key, newVal =>
      if k = key then .cons k newVal (objSetField tl key newVal)
      else .cons k v (objSetField tl key newVal)

/-- Read a string-valued property of a JSON value; `none` models the
JavaScript `undefined` obtained for a missing property, a non-object
receiver, or (conservatively) a non-string value. -/
def getStrField (j : Json) (key : String) : Option String :=
  match j with
  | .obj fs =>
    match objLookup fs key with
    | some (.str t) => some t
    | _ => none
  | _ => none

/-- Read a number-valued property of a JSON value. -/
def getNumField (j : Json) (key : String) : Option Int :=
  match j with
  | .obj fs =>
    match objLookup fs key with
    | some (.num n) => some n
    | _ => none
  | _ => none

/-- Read any property of a JSON value. -/
def getField (j : Json) (key : String) : Option Json :=
  match j with
  | .obj fs => objLookup fs key
  | _ => none

/-- Convert an embedded JSON array spine to a Lean list. -/
def JsonArr.toList : JsonArr → List Json
  | .nil => []
  | .cons x tl => x :: JsonArr.toList tl

/-- The length of a JSON array. -/
def arrLen (xs : JsonArr) : Nat := xs.toList.length

/-! ## PathRemapper (`remapPaths` from `path-utils.ts`)

The source checks `obj.startsWith(oldPath)` and then calls
`obj.replace(oldPath, newPath)`; since the pattern is a prefix of the
subject, the first occurrence replaced is the one at position zero.
Arrays and objects are rebuilt with every contained value remapped;
null and the remaining scalars pass through unchanged. -/

mutual

def remapPaths (j : Json) (oldPath newPath : String) : Json :=
  match j with
  | .jnull => .jnull
  | .str s => if strStartsWith s oldPath then .str (jsStringReplace s oldPath newPath) else .str s
  | .arr xs => .arr (remapArr xs oldPath newPath)
  | .obj fs => .obj (remapObj fs oldPath newPath)
  | .num n => .num n
  | .jbool b => .jbool b

def remapArr (xs : JsonArr) (oldPath newPath : String) : JsonArr :=
  match xs with
  | .nil => .nil
  | .cons x tl => .cons (remapPaths x oldPath newPath) (remapArr tl oldPath newPath)

def remapObj (fs : JsonObj) (oldPath newPath : String) : JsonObj :=
  match fs with
  | .nil => .nil
  | .cons k v tl => .cons k (remapPaths v oldPath newPath) (remapObj tl oldPath newPath)

end

/-- Textual prefix replacement as worded by the specification: a string
that starts with `oldPath` has that prefix textually replaced by
`newPath`; otherwise the string is unchanged. -/
def specPrefixReplace (s oldPath newPath : String) : String :=
  if strStartsWith s oldPath then String.mk (newPath.data ++ s.data.drop oldPath.data.length)
  else s

/-! The remap transform as worded by the specification (for comparison
with `remapPaths`, which is translated from the source): strings get a
textual prefix replacement, arrays and objects are rebuilt recursively,
all other scalars pass through unchanged. -/

mutual

def specRemapPaths (j : Json) (oldPath newPath : String) : Json :=
  match j with
  | .jnull => .jnull
  | .str s => .str (specPrefixReplace s oldPath newPath)
  | .arr xs => .arr (specRemapArr xs oldPath newPath)
  | .obj fs => .obj (specRemapObj fs oldPath newPath)
  | .num n => .num n
  | .jbool b => .jbool b

def specRemapArr (xs : JsonArr) (oldPath newPath : String) : JsonArr :=
  match xs with
  | .nil => .nil
  | .cons x tl => .cons (specRemapPaths x oldPath newPath) (specRemapArr tl oldPath newPath)

def specRemapObj (fs : JsonObj) (oldPath newPath : String) : JsonObj :=
  match fs with
  | .nil => .nil
  | .cons k v tl => .cons k (specRemapPaths v oldPath newPath) (specRemapObj tl oldPath newPath)

end

/-! ## RepoResolver (`detect-repo.ts`)

The bounded-depth directory walk (`searchInDirectory`) performs raw
filesystem I/O; following the specification's design note that external
capabilities are injected, the resolver is parameterised by the list of
raw candidate directories the walk produced for a project name
(concatenated across search roots, duplicates included) and by a local
path-existence predicate.  `findRepositoryByName` keeps the source's
shaping of that raw list: de-duplication preserving first occurrence
(JavaScript `[...new Set(candidates)]`), the `found` flag, and the
`path` field that is only set for a unique candidate. -/

/-- Insertion-order de-duplication, as JavaScript `[...new Set(l)]`. -/
def dedupAcc (seen : List String) : List String → List String
  | [] => []
  | x :: xs => if x ∈ seen then dedupAcc seen xs else x :: dedupAcc (x :: seen) xs

structure RepoSearchResult where
  found : Bool
  path : Option String
  candidates : List String

/-- Shape the raw candidate list produced by the directory walk, as
`findRepositoryByName` does after its search loop. -/
def findRepositoryByName (rawCandidates : List String) : RepoSearchResult :=
  let uniqueCandidates := dedupAcc [] rawCandidates
  { found := decide (uniqueCandidates.length > 0)
    path := if uniqueCandidates.length = 1 then uniqueCandidates.head? else none
    candidates := uniqueCandidates }

structure PathResolutionResult where
  resolved : Bool
  newPath : Option String
  requiresUserInput : Bool
  candidates : List String
  error : Option String

/-- Attempt to resolve the project path for ingestion (`resolveProjectPath`).
`pathExistsQ` models `pathExistsSync` on the local machine and
`searchRaw` models the raw results of the candidate search per project
name. -/
def resolveProjectPath (pathExistsQ : String → Bool) (searchRaw : String → List String)
    (originalPath projectName : String) : PathResolutionResult :=
  if pathExistsQ originalPath then
    { resolved := true
      newPath := some originalPath
      requiresUserInput := false
      candidates := [originalPath]
      error := none }
  else
    let searchResult := findRepositoryByName (searchRaw projectName)
    if searchResult.found = false then
      { resolved := false
        newPath := none
        requiresUserInput := true
        candidates := []
        error := some ("Could not find repository " ++ projectName ++ " on this machine") }
    else
      match searchResult.path with
      | some p =>
        { resolved := true
          newPath := some p
          requiresUserInput := false
          candidates := searchResult.candidates
          error := none }
      | none =>
        { resolved := false
          newPath := none
          requiresUserInput := true
          candidates := searchResult.candidates
          error := none }

/-! ## ArchiveBuilder slug (`toKebabCase`)

The source lower-cases the title, replaces runs matching the regular
expression class of non-(lowercase-alphanumeric) characters by single
hyphens, strips leading and trailing hyphen runs, and collapses hyphen
runs.  Lower-casing is modelled on ASCII letters (the claims only
exercise ASCII). -/

/-- True for the characters matched by the class `[a-z0-9]`. -/
def isLowerAlnum (c : Char) : Bool :=
  (97 ≤ c.toNat && c.toNat ≤ 122) || (48 ≤ c.toNat && c.toNat ≤ 57)

/-- ASCII lower-casing of one character. -/
def jsToLowerChar (c : Char) : Char :=
  if 65 ≤ c.toNat && c.toNat ≤ 90 then Char.ofNat (c.toNat + 32) else c

/-- Replace every maximal run of non-`[a-z0-9]` characters by a single
hyphen (the `replace(/[^a-z0-9]+/g, "-")` step); the flag records
whether the previous character was part of such a run. -/
def collapseNonAlnum (inRun : Bool) : List Char → List Char
  | [] => []
  | c :: cs =>
    if isLowerAlnum c then c :: collapseNonAlnum false cs
    else if inRun then collapseNonAlnum true cs
    else hyphenChar :: collapseNonAlnum true cs

/-- Drop leading hyphens (the `^-+` half of the trim step). -/
def trimLeadingHyphens (l : List Char) : List Char :=
  l.dropWhile (fun c => c = hyphenChar)

/-- Drop trailing hyphens (the `-+$` half of the trim step). -/
def trimTrailingHyphens (l : List Char) : List Char :=
  ((l.reverse).dropWhile (fun c => c = hyphenChar)).reverse

/-- Replace every maximal run of hyphens by a single hyphen (the final
global hyphen-run replacement step of `toKebabCase`). -/
def collapseHyphenRuns (inRun : Bool) : List Char → List Char
  | [] => []
  | c :: cs =>
    if c = hyphenChar then
      if inRun then collapseHyphenRuns true cs
      else hyphenChar :: collapseHyphenRuns true cs
    else c :: collapseHyphenRuns false cs

/-- Convert a string to kebab-case (`toKebabCase`). -/
def toKebabCase (s : String) : String :=
  String.mk (collapseHyphenRuns false (trimTrailingHyphens (trimLeadingHyphens
    (collapseNonAlnum false (s.data.map jsToLowerChar)))))

/-- Head-of-list alphanumeric test, used to detect whether the next
character continues the current word. -/
def headAlnum : List Char → Bool
  | [] => false
  | c :: _ => isLowerAlnum c

/-- Prepend a character onto the first word of a word list. -/
def consHead (c : Char) : List (List Char) → List (List Char)
  | [] => [[c]]
  | w :: ws => (c :: w) :: ws

/-- The maximal runs of `[a-z0-9]` characters of a character list, in
order; non-alphanumeric characters only separate words. -/
def alnumWords : List Char → List (List Char)
  | [] => []
  | c :: cs =>
    if isLowerAlnum c then
      if headAlnum cs then consHead c (alnumWords cs) else [c] :: alnumWords cs
    else alnumWords cs

/-- Join words with single hyphens. -/
def intercalateHyphen : List (List Char) → List Char
  | [] => []
  | [w] => w
  | w :: w2 :: ws => w ++ hyphenChar :: intercalateHyphen (w2 :: ws)

/-- The slug as worded by the specification: lower-case the title and
join its maximal alphanumeric runs with single hyphens, which collapses
separator runs and trims leading and trailing separators. -/
def slugSpec (s : String) : String :=
  String.mk (intercalateHyphen (alnumWords (s.data.map jsToLowerChar)))

/-- JavaScript `info.title || "untitled"`: an absent or empty title
falls back to the constant. -/
def archiveSlugBase (title : Option String) : String :=
  match title with
  | some t => if t = "" then "untitled" else t
  | none => "untitled"

/-! ## The on-disk record store

Files are addressed by segment paths relative to the opencode data
directory (so `storage/session/p/s.json` is the four-segment path
`["storage", "session", "p", "s.json"]`, and the project-scoped snapshot
tree lives under the head segment `"snapshot"`).  A store is the finite
list of its files; directories are implied by the files they contain,
and directory listings enumerate names in store order (the operating
system leaves `readdir` order unspecified, so any fixed order is a
faithful refinement). -/

/-- A filesystem path as a list of segments. -/
abbrev FsPath := List String

/-- The content of one file: bytes that parse as JSON are carried as the
parsed value (serialisation layout is not modelled), other bytes are
carried opaquely. -/
inductive FileContent where
  | jsonFile (j : Json)
  | rawFile (s : String)

/-- A record store: the association of file paths to contents. -/
abbrev Store := List (FsPath × FileContent)

/-- Content of the file at exactly path `p`, if one exists. -/
def storeLookup : Store → FsPath → Option FileContent
  | [], _ => none
  | e :: rest, p => if e.1 = p then some e.2 else storeLookup rest p

/-- Write a file (`writeFile`): replace the content at `p`, or add the
file if absent. -/
def storeSet : Store → FsPath → FileContent → Store
  | [], p, c => [(p, c)]
  | e :: rest, p, c => if e.1 = p then (p, c) :: rest else e :: storeSet rest p c

/-- Remove the leading segments `dir` from `p`; `some rest` means `p`
lies at or below directory `dir`. -/
def stripPrefixSegs : FsPath → FsPath → Option FsPath
  | [], p => some p
  | _, [] => none
  | d :: ds, q :: qs => if d = q then stripPrefixSegs ds qs else none

/-- Whether anything (a file, or a directory implied by some file)
exists at `p`; models a successful `stat`/`access`. -/
def pathExistsFS (st : Store) (p : FsPath) : Bool :=
  st.any (fun e => (stripPrefixSegs p e.1).isSome)

/-- The immediate child names of directory `dir`, in store order without
duplicates; models `readdir`. -/
def childNames (st : Store) (dir : FsPath) : List String :=
  dedupAcc [] (st.filterMap (fun e => (stripPrefixSegs dir e.1).bind List.head?))

/-- Whether `p` is strictly below directory `dir`. -/
def underDir (dir p : FsPath) : Bool :=
  match stripPrefixSegs dir p with
  | some (_ :: _) => true
  | _ => false

/-- All files strictly below directory `dir`, in store order; models the
recursive enumeration of a directory tree. -/
def filesUnder (st : Store) (dir : FsPath) : Store :=
  st.filter (fun e => underDir dir e.1)

/-- The final segment of a path (the file name seen by `readdir`). -/
def lastName (p : FsPath) : String :=
  (p.getLast?).getD ""

/-! ## FileCollector (`collectSessionFiles` and `findSessionFile`)

The message and part reading steps abort collection when a record fails
to parse or lacks a string id (in the source, `JSON.parse` or the later
`path.join` on a non-string id throws); both are rendered as
`parseError`. -/

inductive FileKind where
  | session
  | message
  | part
  | session_diff
  | project
  | snapshot

structure SessionArchiveInfo where
  sessionId : String
  projectId : String
  title : Option String
  directory : Option String
  files : List (FsPath × FileKind)

inductive CollectError where
  | notFound
  | parseError

/-- Find the session file for a session id across all project
subdirectories of the store's session index. -/
def findSessionFile (st : Store) (sessionId : String) : Option (FsPath × String) :=
  if pathExistsFS st ["storage", "session"] then
    (childNames st ["storage", "session"]).findSome? (fun projectId =>
      let p : FsPath := ["storage", "session", projectId, sessionId ++ ".json"]
      if pathExistsFS st p then some (p, projectId) else none)
  else none

/-- Read each `.json` entry of the message directory, returning its path
and the message id parsed from its content. -/
def readMessageFiles (st : Store) (sessionId : String) :
    List String → Except CollectError (List (FsPath × String))
  | [] => .ok []
  | name :: rest =>
    if strEndsWith name ".json" then
      match storeLookup st ["storage", "message", sessionId, name] with
      | some (.jsonFile j) =>
        match getStrField j "id" with
        | some mid =>
          match readMessageFiles st sessionId rest with
          | .ok l => .ok ((["storage", "message", sessionId, name], mid) :: l)
          | .error e => .error e
        | none => .error .parseError
      | _ => .error .parseError
    else readMessageFiles st sessionId rest

/-- Enumerate the `.json` part files of each message id, skipping
message ids whose part directory does not exist. -/
def collectPartFiles (st : Store) : List String → List (FsPath × FileKind)
  | [] => []
  | mid :: rest =>
    (if pathExistsFS st ["storage", "part", mid] then
      ((childNames st ["storage", "part", mid]).filter (fun f => strEndsWith f ".json")).map
        (fun f => (["storage", "part", mid, f], FileKind.part))
     else []) ++ collectPartFiles st rest

/-- Collect all files related to a session: the session document, its
message files, their part files, the diff-set document and project
document when present, and every file of the project's snapshot tree. -/
def collectSessionFiles (st : Store) (sessionId : String) :
    Except CollectError SessionArchiveInfo :=
  match findSessionFile st sessionId with
  | none => .error .notFound
  | some (spath, projectId) =>
    match storeLookup st spath with
    | some (.jsonFile sj) =>
      let msgNames :=
        if pathExistsFS st ["storage", "message", sessionId] then
          childNames st ["storage", "message", sessionId]
        else []
      match readMessageFiles st sessionId msgNames with
      | .error e => .error e
      | .ok msgs =>
        let msgFiles := msgs.map (fun m => (m.1, FileKind.message))
        let partFiles := collectPartFiles st (msgs.map (fun m => m.2))
        let diffPath : FsPath := ["storage", "session_diff", sessionId ++ ".json"]
        let diffFiles := if pathExistsFS st diffPath then [(diffPath, FileKind.session_diff)] else []
        let projPath : FsPath := ["storage", "project", projectId ++ ".json"]
        let projFiles := if pathExistsFS st projPath then [(projPath, FileKind.project)] else []
        let snapFiles :=
          if pathExistsFS st ["snapshot", projectId] then
            (filesUnder st ["snapshot", projectId]).map (fun e => (e.1, FileKind.snapshot))
          else []
        .ok { sessionId := sessionId
              projectId := projectId
              title := getStrField sj "title"
              directory := getStrField sj "directory"
              files := (spath, FileKind.session) ::
                (msgFiles ++ partFiles ++ diffFiles ++ projFiles ++ snapFiles) }
    | _ => .error .parseError

/-! ## ArchiveBuilder (`createSessionArchive`)

Staging copies every collected file to its store-relative path in a
temporary tree and compresses that tree; the compression primitive is
treated as the identity on the staged file map, so an archive is the
list of staged files.  The archive id uses the current date, which is
passed in explicitly. -/

structure BuiltArchive where
  archiveId : String
  files : Store

/-- Stage the collected files: read each one from the store and place it
at its store-relative path. -/
def stageFiles (st : Store) (files : List (FsPath × FileKind)) : Store :=
  files.filterMap (fun f => (storeLookup st f.1).map (fun c => (f.1, c)))

/-- Create a session archive: collect the session's files, derive the
archive id from the date and the kebab-cased title, and stage the files. -/
def createSessionArchive (st : Store) (dateStr : String) (sessionId : String) :
    Except CollectError BuiltArchive :=
  match collectSessionFiles st sessionId with
  | .error e => .error e
  | .ok info =>
    .ok { archiveId := dateStr ++ "-" ++ toKebabCase (archiveSlugBase info.title)
          files := stageFiles st info.files }

/-! ## ArchiveExtractor (`extractSessionArchive`)

Decompression of an archive into a temporary tree is the identity on
the archive's file map.  The session document discovered in the staged
tree must carry string `id` and `projectID` fields (in the source a
non-string `projectID` makes the later `path.join` throw); its `title`
and `directory` fields are optional, `none` modelling `undefined`.
The remap-target validator `verifyRepoPath` performs local filesystem
checks and is injected as a predicate. -/

structure SessionData where
  id : String
  projectID : String
  title : Option String
  directory : Option String

/-- Parse a session document. -/
def parseSessionData (j : Json) : Option SessionData :=
  match getStrField j "id", getStrField j "projectID" with
  | some i, some p =>
    some { id := i, projectID := p
           title := getStrField j "title", directory := getStrField j "directory" }
  | _, _ => none

inductive ExtractError where
  | invalidArchive
  | sessionParseError
  | invalidRemapPath
  | finalReadError

/-- Scan the staged session index exactly as the source does: walk the
project subdirectories of `storage/session` in listing order, take the
first `.json` entry found, and parse it as the session document. -/
def findArchiveSession (arch : Store) : Except ExtractError SessionData :=
  match (childNames arch ["storage", "session"]).findSome? (fun projectId =>
      ((childNames arch ["storage", "session", projectId]).find?
          (fun f => strEndsWith f ".json")).map (fun f => (projectId, f))) with
  | none => .error .invalidArchive
  | some (projectId, f) =>
    match storeLookup arch ["storage", "session", projectId, f] with
    | some (.jsonFile j) =>
      match parseSessionData j with
      | some sd => .ok sd
      | none => .error .sessionParseError
    | _ => .error .sessionParseError

/-- Rewrite every `.json`-named file of the staged tree through the path
remapper; files whose bytes do not parse as JSON are skipped. -/
def remapAllJsonFiles (arch : Store) (oldPath newPath : String) : Store :=
  arch.map (fun e =>
    if strEndsWith (lastName e.1) ".json" then
      match e.2 with
      | .jsonFile j => (e.1, .jsonFile (remapPaths j oldPath newPath))
      | .rawFile s => (e.1, .rawFile s)
    else e)

/-- Prefix the session title with the imported marker exactly when a
truthy title is present and the marker is not already there; any other
document shape is returned unchanged (the source catches the attendant
exceptions and keeps the original content). -/
def markTitleImported (j : Json) : Json :=
  match j with
  | .obj fs =>
    match objLookup fs "title" with
    | some (.str t) =>
      if !(t = "") && !(strStartsWith t "[IMPORTED]") then
        .obj (objSetField fs "title" (.str ("[IMPORTED] " ++ t)))
      else j
    | _ => j
  | _ => j

/-- The transform the extractor passes to the storage copy: files whose
absolute path contains a `session` directory component and whose name
ends in `.json` get the imported-title rewrite; bytes that fail to
parse are kept as they are. -/
def sessionImportTransform (p : FsPath) (c : FileContent) : FileContent :=
  if p.dropLast.contains "session" && strEndsWith (lastName p) ".json" then
    match c with
    | .jsonFile j => .jsonFile (markTitleImported j)
    | .rawFile s => .rawFile s
  else c

/-- The content actually written for a fresh file: the transform is
applied when one is given and the file name ends in `.json`. -/
def copyWrittenContent (transform : Option (FsPath → FileContent → FileContent))
    (p : FsPath) (c : FileContent) : FileContent :=
  match transform with
  | some f => if strEndsWith (lastName p) ".json" then f p c else c
  | none => c

/-- Recursively copy a directory (`copyDirRecursive`): a source file
whose destination path already exists is skipped but counted; a fresh
file is written, applying the transform when one is given and the file
name ends in `.json`.  Returns the number of files processed together
with the updated destination store. -/
def copyDirRecursive (transform : Option (FsPath → FileContent → FileContent)) :
    Store → Store → Nat × Store
  | [], dest => (0, dest)
  | (p, c) :: rest, dest =>
    if pathExistsFS dest p then
      let r := copyDirRecursive transform rest dest
      (r.1 + 1, r.2)
    else
      let r := copyDirRecursive transform rest
        (storeSet dest p (copyWrittenContent transform p c))
      (r.1 + 1, r.2)

structure ExtractResult where
  success : Bool
  sessionId : String
  sessionTitle : Option String
  fileCount : Nat
  pathRemapped : Bool
  originalPath : Option String
  newPath : Option String

/-- Re-read the session document from its destination path to report
the effective title; an absent destination file keeps the staged title. -/
def finalTitleRead (st : Store) (p : FsPath) (fallback : Option String) :
    Except ExtractError (Option String) :=
  if pathExistsFS st p then
    match storeLookup st p with
    | some (.jsonFile j) => .ok (getStrField j "title")
    | _ => .error .finalReadError
  else .ok fallback

/-- The optional path-remap stage of extraction: when a truthy remap
target and a truthy staged original path are both present, the target
is validated and every staged JSON file is rewritten; otherwise the
staged tree passes through untouched. -/
def remapStage (validRepo : String → Bool) (arch : Store) (sd : SessionData)
    (remapToPath : Option String) : Except ExtractError (Store × Bool × Option String) :=
  match remapToPath, sd.directory with
  | some rp, some op =>
    if rp = "" || op = "" then .ok (arch, false, none)
    else if validRepo rp then .ok (remapAllJsonFiles arch op rp, true, some rp)
    else .error .invalidRemapPath
  | _, _ => .ok (arch, false, none)

/-- The merge phase of extraction: copy the staged `storage` subtree
(with the imported-title transform) and then the staged `snapshot`
subtree into the destination store, counting every file processed. -/
def mergePhase (arch2 : Store) (store : Store) : Nat × Store :=
  let r1 :=
    if pathExistsFS arch2 ["storage"] then
      copyDirRecursive (some sessionImportTransform) (filesUnder arch2 ["storage"]) store
    else (0, store)
  let r2 :=
    if pathExistsFS arch2 ["snapshot"] then
      copyDirRecursive none (filesUnder arch2 ["snapshot"]) r1.2
    else (0, r1.2)
  (r1.1 + r2.1, r2.2)

/-- Extract a session archive into the destination store: locate the
session document in the staged tree, optionally validate the remap
target and rewrite every staged JSON file, then merge the `storage` and
`snapshot` subtrees into the store, and finally re-read the merged
session document's title. -/
def extractSessionArchive (validRepo : String → Bool) (arch : Store) (store : Store)
    (remapToPath : Option String) : Except ExtractError (ExtractResult × Store) :=
  match findArchiveSession arch with
  | .error e => .error e
  | .ok sd =>
    match remapStage validRepo arch sd remapToPath with
    | .error e => .error e
    | .ok (arch2, pathRemapped, newPath) =>
      let m := mergePhase arch2 store
      match finalTitleRead m.2 ["storage", "session", sd.projectID, sd.id ++ ".json"]
          sd.title with
      | .error e => .error e
      | .ok t =>
        .ok ({ success := true
               sessionId := sd.id
               sessionTitle := t
               fileCount := m.1
               pathRemapped := pathRemapped
               originalPath := sd.directory
               newPath := newPath }, m.2)

/-! ## Session ingest from a private-share document (`ingest-session.ts`)

A private-share file is one JSON document whose `data` field is an
array of tagged entries.  Parsing requirements mirror the operations
the source performs on each field (template interpolation of the title,
`path.join` on ids, property access on `time`); shares that violate
them make the source throw and are rendered as `invalidShare`. -/

/-- Extract the original project directory from a private-share
document: the `directory` of the first entry tagged `session` in its
`data` array (`null`/absence modelled as `none`). -/
def extractOriginalPath (share : Json) : Option String :=
  match getField share "data" with
  | some (.arr es) =>
    match es.toList.find? (fun e =>
        match getStrField e "type" with
        | some t => t = "session"
        | none => false) with
    | some e =>
      match getField e "data" with
      | some d => getStrField d "directory"
      | none => none
    | none => none
  | _ => none

/-- The session fields the ingest script reads. -/
structure IngestSession where
  id : String
  projectID : String
  title : String
  directory : String
  created : Int
  updated : Int
  fields : JsonObj

/-- Parse the `data` payload of a session entry for ingestion. -/
def parseIngestSession (j : Json) : Option IngestSession :=
  match j with
  | .obj fs =>
    match getStrField j "id", getStrField j "projectID",
        getStrField j "title", getStrField j "directory" with
    | some i, some p, some t, some d =>
      match getField j "time" with
      | some tm =>
        match getNumField tm "created", getNumField tm "updated" with
        | some c, some u =>
          some { id := i, projectID := p, title := t, directory := d
                 created := c, updated := u, fields := fs }
        | _, _ => none
      | none => none
    | _, _, _, _ => none
  | _ => none

/-- Entries of the share's `data` array carrying a given `type` tag. -/
def entriesOfType (es : List Json) (ty : String) : List Json :=
  es.filter (fun e =>
    match getStrField e "type" with
    | some t => t = ty
    | none => false)

/-- Compute the write of one message entry: its destination path (keyed
by the message's own `sessionID` and `id`) and its content. -/
def messageWrites : List Json → Option (List (FsPath × Json))
  | [] => some []
  | e :: rest =>
    match getField e "data" with
    | some d =>
      match getStrField d "id", getStrField d "sessionID" with
      | some i, some s =>
        match messageWrites rest with
        | some l => some ((["storage", "message", s, i ++ ".json"], d) :: l)
        | none => none
      | _, _ => none
    | none => none

/-- Compute the write of one part entry, keyed by `messageID` and `id`. -/
def partWrites : List Json → Option (List (FsPath × Json))
  | [] => some []
  | e :: rest =>
    match getField e "data" with
    | some d =>
      match getStrField d "id", getStrField d "messageID" with
      | some i, some m =>
        match partWrites rest with
        | some l => some ((["storage", "part", m, i ++ ".json"], d) :: l)
        | none => none
      | _, _ => none
    | none => none

/-- Apply a list of JSON writes to the store in order. -/
def applyWrites (st : Store) : List (FsPath × Json) → Store
  | [] => st
  | (p, j) :: rest => applyWrites (storeSet st p (.jsonFile j)) rest

/-- Write the project document if absent (`writeProject`); returns the
store and whether a write occurred. -/
def writeProject (st : Store) (projectId : String) (projectData : Json) : Store × Bool :=
  let p : FsPath := ["storage", "project", projectId ++ ".json"]
  if pathExistsFS st p then (st, false)
  else (storeSet st p (.jsonFile projectData), true)

inductive IngestError where
  | invalidShare
  | invalidRemapPath

structure IngestResult where
  success : Bool
  sessionId : String
  sessionTitle : String
  messageCount : Nat
  partCount : Nat
  diffCount : Nat
  pathRemapped : Bool
  originalPath : Option String
  newPath : Option String

/-- Ingest a session from a private-share document: optionally remap
paths across the whole document, extract the tagged entries, derive the
project document from the session, and write project (if absent),
session, messages, parts, and the diff set into the store. -/
def ingestSession (validRepo : String → Bool) (st : Store) (share : Json)
    (remapToPath : Option String) : Except IngestError (IngestResult × Store) :=
  let originalPath := extractOriginalPath share
  let stage : Except IngestError (Json × Bool × Option String) :=
    match remapToPath, originalPath with
    | some rp, some op =>
      if rp = "" || op = "" then .ok (share, false, none)
      else if validRepo rp then .ok (remapPaths share op rp, true, some rp)
      else .error .invalidRemapPath
    | _, _ => .ok (share, false, none)
  match stage with
  | .error e => .error e
  | .ok (share2, pathRemapped, newPath) =>
    match getField share2 "data" with
    | some (.arr esArr) =>
      let es := esArr.toList
      match (entriesOfType es "session").head? with
      | none => .error .invalidShare
      | some sessionEntry =>
        match getField sessionEntry "data" with
        | none => .error .invalidShare
        | some sdata =>
          match parseIngestSession sdata with
          | none => .error .invalidShare
          | some s =>
            match messageWrites (entriesOfType es "message"),
                partWrites (entriesOfType es "part") with
            | some msgW, some partW =>
              let diffRes : Except IngestError (Json × Nat) :=
                match (entriesOfType es "session_diff").head? with
                | some de =>
                  match getField de "data" with
                  | some (.arr ds) => .ok (.arr ds, arrLen ds)
                  | _ => .error .invalidShare
                | none => .ok (.arr .nil, 0)
              match diffRes with
              | .error e => .error e
              | .ok (diffData, diffCount) =>
                let projectData : Json := .obj (.cons "id" (.str s.projectID)
                  (.cons "worktree" (.str s.directory) (.cons "vcs" (.str "git")
                    (.cons "time" (.obj (.cons "created" (.num s.created)
                      (.cons "updated" (.num s.updated) .nil))) .nil))))
                let sessionDoc : Json := .obj (objSetField s.fields "title"
                  (.str ("[IMPORTED] " ++ s.title)))
                let st1 := (writeProject st s.projectID projectData).1
                let st2 := storeSet st1 ["storage", "session", s.projectID, s.id ++ ".json"]
                  (.jsonFile sessionDoc)
                let st3 := applyWrites st2 msgW
                let st4 := applyWrites st3 partW
                let st5 := storeSet st4 ["storage", "session_diff", s.id ++ ".json"]
                  (.jsonFile diffData)
                .ok ({ success := true
                       sessionId := s.id
                       sessionTitle := "[IMPORTED] " ++ s.title
                       messageCount := msgW.length
                       partCount := partW.length
                       diffCount := diffCount
                       pathRemapped := pathRemapped
                       originalPath := originalPath
                       newPath := newPath }, st5)
            | _, _ => .error .invalidShare
    | _ => .error .invalidShare

/-! ## Structured source sessions

To quantify over "every session with N messages and M parts", a source
store is built from a structured description: one session document, its
message documents (each owning part documents), an optional diff-set
document, the owning project document, and a project-scoped snapshot
tree.  The layout is the record store convention the collector walks. -/

structure PartDesc where
  id : String
  content : Json

structure MessageDesc where
  id : String
  parts : List PartDesc

structure SnapDesc where
  rel : FsPath
  content : FileContent

structure SessionDesc where
  sessionId : String
  projectId : String
  title : String
  directory : String
  msgs : List MessageDesc
  diff : Option Json
  snaps : List SnapDesc

/-- The session document of a described session. -/
def sessionDescJson (d : SessionDesc) : Json :=
  .obj (.cons "id" (.str d.sessionId) (.cons "projectID" (.str d.projectId)
    (.cons "title" (.str d.title) (.cons "directory" (.str d.directory) .nil))))

/-- A message document: its id and owning session id. -/
def messageDescJson (d : SessionDesc) (m : MessageDesc) : Json :=
  .obj (.cons "id" (.str m.id) (.cons "sessionID" (.str d.sessionId) .nil))

/-- The project document of a described session. -/
def projectDescJson (d : SessionDesc) : Json :=
  .obj (.cons "id" (.str d.projectId) (.cons "worktree" (.str d.directory) .nil))

/-- The store entry of one message document. -/
def messageEntry (d : SessionDesc) (m : MessageDesc) : FsPath × FileContent :=
  (["storage", "message", d.sessionId, m.id ++ ".json"], .jsonFile (messageDescJson d m))

/-- The store entries of one message's part documents. -/
def partEntries (m : MessageDesc) : Store :=
  m.parts.map (fun p => (["storage", "part", m.id, p.id ++ ".json"], .jsonFile p.content))

/-- The store entry of one snapshot file. -/
def snapEntry (d : SessionDesc) (s : SnapDesc) : FsPath × FileContent :=
  ("snapshot" :: d.projectId :: s.rel, s.content)

/-- The source record store holding exactly the described session. -/
def mkStore (d : SessionDesc) : Store :=
  (["storage", "session", d.projectId, d.sessionId ++ ".json"],
      .jsonFile (sessionDescJson d)) ::
    (d.msgs.map (messageEntry d) ++
      (d.msgs.map partEntries).flatten ++
      (match d.diff with
       | some j => [(["storage", "session_diff", d.sessionId ++ ".json"], .jsonFile j)]
       | none => []) ++
      [(["storage", "project", d.projectId ++ ".json"], .jsonFile (projectDescJson d))] ++
      d.snaps.map (snapEntry d))

/-- Well-formedness of a described session: message ids are distinct,
each message's part ids are distinct, and snapshot files have distinct
non-empty relative paths. -/
def SessionDesc.wf (d : SessionDesc) : Prop :=
  (d.msgs.map MessageDesc.id).Nodup ∧
    (∀ m ∈ d.msgs, (m.parts.map PartDesc.id).Nodup) ∧
    (d.snaps.map SnapDesc.rel).Nodup ∧
    (∀ s ∈ d.snaps, s.rel ≠ [])

/-- The number of part documents of a described session. -/
def totalParts (d : SessionDesc) : Nat :=
  (d.msgs.map (fun m => m.parts.length)).sum

/-- Number of diff-set documents (one or zero) of a described session. -/
def diffCountD (d : SessionDesc) : Nat :=
  match d.diff with
  | some _ => 1
  | none => 0

/-- Build the archive of a described session and extract it into an
empty destination store (no remap requested). -/
def buildThenExtract (validRepo : String → Bool) (d : SessionDesc) (dateStr : String) :
    Option (BuiltArchive × ExtractResult × Store) :=
  match createSessionArchive (mkStore d) dateStr d.sessionId with
  | .error _ => none
  | .ok b =>
    match extractSessionArchive validRepo b.files [] none with
    | .error _ => none
    | .ok (r, st) => some (b, r, st)

/-- Build the archive of a described session and extract it twice into
an initially empty destination store. -/
def buildThenExtractTwice (validRepo : String → Bool) (d : SessionDesc) (dateStr : String) :
    Option (ExtractResult × ExtractResult × Store) :=
  match buildThenExtract validRepo d dateStr with
  | none => none
  | some (b, r1, st1) =>
    match extractSessionArchive validRepo b.files st1 none with
    | .error _ => none
    | .ok (r2, st2) => some (r1, r2, st2)

/-- The archive id produced for a described session on a given date. -/
def builtArchiveId (d : SessionDesc) (dateStr : String) : Option String :=
  match createSessionArchive (mkStore d) dateStr d.sessionId with
  | .error _ => none
  | .ok b => some b.archiveId

/-! ## Concrete fixtures used by witnesses and counterexamples -/

/-- The record tree of the path-remap scenario: a `directory` field, a
nested path-bearing string field, and a sibling whose value shares the
character prefix of the old path. -/
def c3Record : Json :=
  .obj (.cons "directory" (.str "/A/B/repo")
    (.cons "nested" (.obj (.cons "field" (.str "/A/B/repo/src/x.ts") .nil))
      (.cons "other" (.str "/A/B/repo2") .nil)))

/-- A messageless session titled `Fix bug`, for the archive id scenario. -/
def descFixBug : SessionDesc :=
  { sessionId := "s1", projectId := "p1", title := "Fix bug", directory := "/A/B/repo"
    msgs := [], diff := none, snaps := [] }

/-- A small but fully featured session: two messages, one part, a diff
set, and one snapshot file. -/
def fixtureDesc : SessionDesc :=
  { sessionId := "s1", projectId := "p1", title := "Fix bug", directory := "/A/B/repo"
    msgs := [ { id := "m1", parts := [ { id := "pa", content := .str "x" } ] },
              { id := "m2", parts := [] } ]
    diff := some (.arr .nil)
    snaps := [ { rel := ["objects", "ab"], content := .rawFile "bin" } ] }

/-- The session document of the one-file witness archive. -/
def c1SessionJson : Json :=
  .obj (.cons "id" (.str "s1") (.cons "projectID" (.str "p1")
    (.cons "title" (.str "T") (.cons "directory" (.str "/d") .nil))))

/-- The same document with its title marked as imported. -/
def c1MarkedJson : Json :=
  .obj (.cons "id" (.str "s1") (.cons "projectID" (.str "p1")
    (.cons "title" (.str "[IMPORTED] T") (.cons "directory" (.str "/d") .nil))))

/-- A one-file archive holding only that session document. -/
def c1Archive : Store :=
  [(["storage", "session", "p1", "s1.json"], .jsonFile c1SessionJson)]

/-- The destination store after extracting the one-file archive. -/
def c1StoreAfter : Store :=
  [(["storage", "session", "p1", "s1.json"], .jsonFile c1MarkedJson)]

/-- The result record of extracting the one-file archive. -/
def c1Result : ExtractResult :=
  { success := true, sessionId := "s1", sessionTitle := some "[IMPORTED] T"
    fileCount := 1, pathRemapped := false, originalPath := some "/d", newPath := none }

/-- A store holding one session document and nothing else, for the
collector witness. -/
def c6Store : Store :=
  [(["storage", "session", "p1", "s1.json"],
    .jsonFile (.obj (.cons "id" (.str "s1") (.cons "title" (.str "T") .nil))))]

/-- The session payload of the ingest witness share. -/
def c9SessionData : Json :=
  .obj (.cons "id" (.str "s1") (.cons "projectID" (.str "p1") (.cons "title" (.str "T")
    (.cons "directory" (.str "/d")
      (.cons "time" (.obj (.cons "created" (.num 1) (.cons "updated" (.num 2) .nil))) .nil)))))

/-- A private-share document with one session entry. -/
def c9Share : Json :=
  .obj (.cons "data" (.arr (.cons (.obj (.cons "type" (.str "session")
    (.cons "data" c9SessionData .nil))) .nil)) .nil)

/-- A store already holding a project document with the same id. -/
def c9Store : Store :=
  [(["storage", "project", "p1.json"], .jsonFile (.str "old"))]

/-- The ingested session document (title marked). -/
def c9MarkedSession : Json :=
  .obj (.cons "id" (.str "s1") (.cons "projectID" (.str "p1")
    (.cons "title" (.str "[IMPORTED] T") (.cons "directory" (.str "/d")
      (.cons "time" (.obj (.cons "created" (.num 1) (.cons "updated" (.num 2) .nil))) .nil)))))

/-- The store after ingesting the witness share: the pre-existing
project document is untouched. -/
def c9StoreAfter : Store :=
  [(["storage", "project", "p1.json"], .jsonFile (.str "old")),
   (["storage", "session", "p1", "s1.json"], .jsonFile c9MarkedSession),
   (["storage", "session_diff", "s1.json"], .jsonFile (.arr .nil))]

/-- The result record of the witness ingest. -/
def c9Result : IngestResult :=
  { success := true, sessionId := "s1", sessionTitle := "[IMPORTED] T"
    messageCount := 0, partCount := 0, diffCount := 0, pathRemapped := false
    originalPath := some "/d", newPath := none }

/-! ## Named paths and chunks of a structured source store -/

/-- The path of the described session document. -/
def sessPathD (d : SessionDesc) : FsPath :=
  ["storage", "session", d.projectId, d.sessionId ++ ".json"]

/-- The store entry of the described session document. -/
def sessEntryD (d : SessionDesc) : FsPath × FileContent :=
  (sessPathD d, .jsonFile (sessionDescJson d))

/-- The path of one described message document. -/
def msgPathD (d : SessionDesc) (m : MessageDesc) : FsPath :=
  ["storage", "message", d.sessionId, m.id ++ ".json"]

/-- The path of one described part document. -/
def partPathD (m : MessageDesc) (p : PartDesc) : FsPath :=
  ["storage", "part", m.id, p.id ++ ".json"]

/-- The path of the described diff-set document. -/
def diffPathD (d : SessionDesc) : FsPath :=
  ["storage", "session_diff", d.sessionId ++ ".json"]

/-- The store entries of the optional diff-set document. -/
def diffEntries (d : SessionDesc) : Store :=
  match d.diff with
  | some j => [(diffPathD d, .jsonFile j)]
  | none => []

/-- The path of the described project document. -/
def projPathD (d : SessionDesc) : FsPath :=
  ["storage", "project", d.projectId ++ ".json"]

/-- The store entry of the described project document. -/
def projEntryD (d : SessionDesc) : FsPath × FileContent :=
  (projPathD d, .jsonFile (projectDescJson d))

/-- Everything in the source store apart from the session document. -/
def mkStoreTail (d : SessionDesc) : Store :=
  d.msgs.map (messageEntry d) ++ (d.msgs.map partEntries).flatten ++
    diffEntries d ++ [projEntryD d] ++ d.snaps.map (snapEntry d)

/-- The `storage` half of the source store: every document entry. -/
def storagePartD (d : SessionDesc) : Store :=
  sessEntryD d :: (d.msgs.map (messageEntry d) ++ (d.msgs.map partEntries).flatten ++
    diffEntries d ++ [projEntryD d])

/-- The file list the collector assembles for a described session. -/
def collectFilesD (d : SessionDesc) : List (FsPath × FileKind) :=
  (sessPathD d, FileKind.session) ::
    (d.msgs.map (fun m => (msgPathD d m, FileKind.message)) ++
      (d.msgs.map (fun m => m.parts.map (fun p => (partPathD m p, FileKind.part)))).flatten ++
      (match d.diff with
       | some _ => [(diffPathD d, FileKind.session_diff)]
       | none => []) ++
      [(projPathD d, FileKind.project)] ++
      d.snaps.map (fun s => (("snapshot" :: d.projectId :: s.rel : FsPath),
        FileKind.snapshot)))

/-- The described session document with its title marked as imported. -/
def markedSessionJson (d : SessionDesc) : Json :=
  .obj (.cons "id" (.str d.sessionId) (.cons "projectID" (.str d.projectId)
    (.cons "title" (.str ("[IMPORTED] " ++ d.title))
      (.cons "directory" (.str d.directory) .nil))))

/-- A session document titled `Hello`, for the pre-existing-destination
scenario. -/
def c7SessionJson : Json :=
  .obj (.cons "id" (.str "s1") (.cons "projectID" (.str "p1")
    (.cons "title" (.str "Hello") (.cons "directory" (.str "/d") .nil))))

/-- A one-file archive holding only that session document. -/
def c7Archive : Store :=
  [(["storage", "session", "p1", "s1.json"], .jsonFile c7SessionJson)]

/-- A destination store that already holds the same session document,
its title unmarked. -/
def c7Store : Store :=
  [(["storage", "session", "p1", "s1.json"], .jsonFile c7SessionJson)]

/-- The result of extracting the archive into that destination. -/
def c7Result : ExtractResult :=
  { success := true, sessionId := "s1", sessionTitle := some "Hello"
    fileCount := 1, pathRemapped := false, originalPath := some "/d", newPath := none }

/-! # Theorems -/

/-! ## Path remapping (claims C3, C4, C10) -/

theorem getSubstitution_of_no_dollar (m b a : List Char) :
    ∀ rep : List Char, dollarChar ∉ rep → getSubstitution m b a rep = rep
  | [], _ => rfl
  | [c], h => by
    have hc : ¬ c = dollarChar := fun hh => h (by simp [hh])
    simp [getSubstitution, hc]
  | c :: d :: ds, h => by
    have hc : ¬ c = dollarChar := fun hh => h (by simp [hh])
    have hds : dollarChar ∉ d :: ds := fun hh => h (List.mem_cons_of_mem c hh)
    simp only [getSubstitution]
    rw [if_neg hc]
    exact congrArg (c :: ·) (getSubstitution_of_no_dollar m b a (d :: ds) hds)

theorem findOcc_of_isPrefixOf {s pat : List Char} (h : pat.isPrefixOf s = true) :
    findOcc s pat = some ([], s.drop pat.length) := by
  unfold findOcc
  simp [h]

theorem jsStringReplace_eq_specPrefixReplace {s old new : String}
    (hs : strStartsWith s old = true) (hd : dollarChar ∉ new.data) :
    jsStringReplace s old new = specPrefixReplace s old new := by
  have hp : old.data.isPrefixOf s.data = true := hs
  unfold jsStringReplace specPrefixReplace
  rw [findOcc_of_isPrefixOf hp]
  simp [hs, getSubstitution_of_no_dollar _ _ _ _ hd]

mutual

theorem remapPaths_eq_spec (j : Json) (old new : String) (hd : dollarChar ∉ new.data) :
    remapPaths j old new = specRemapPaths j old new :=
  match j with
  | .jnull => rfl
  | .num _ => rfl
  | .jbool _ => rfl
  | .str s => by
    by_cases hs : strStartsWith s old = true
    · simp only [remapPaths, specRemapPaths, hs, if_true,
        jsStringReplace_eq_specPrefixReplace hs hd]
    · have hs2 : strStartsWith s old = false := by
        cases hfb : strStartsWith s old
        · rfl
        · exact absurd hfb hs
      simp only [remapPaths, specRemapPaths, specPrefixReplace, hs2, Bool.false_eq_true,
        if_false]
  | .arr xs => by
    simp only [remapPaths, specRemapPaths, remapArr_eq_spec xs old new hd]
  | .obj fs => by
    simp only [remapPaths, specRemapPaths, remapObj_eq_spec fs old new hd]

theorem remapArr_eq_spec (xs : JsonArr) (old new : String) (hd : dollarChar ∉ new.data) :
    remapArr xs old new = specRemapArr xs old new :=
  match xs with
  | .nil => rfl
  | .cons x tl => by
    simp only [remapArr, specRemapArr, remapPaths_eq_spec x old new hd,
      remapArr_eq_spec tl old new hd]

theorem remapObj_eq_spec (fs : JsonObj) (old new : String) (hd : dollarChar ∉ new.data) :
    remapObj fs old new = specRemapObj fs old new :=
  match fs with
  | .nil => rfl
  | .cons k v tl => by
    simp only [remapObj, specRemapObj, remapPaths_eq_spec v old new hd,
      remapObj_eq_spec tl old new hd]

end

/-- Claim C3 (counterexample): with `oldPath = "/A/B/repo"` and
`newPath = "/C/repo"`, the sibling field equal to `"/A/B/repo2"` is not
left unchanged — the string starts with the old path, so the source
rewrites it to `"/C/repo2"`. -/
theorem c3_counterexample :
    getStrField (remapPaths c3Record "/A/B/repo" "/C/repo") "other" = some "/C/repo2" ∧
    ("/C/repo2" : String) ≠ "/A/B/repo2" :=
  ⟨rfl, by decide⟩

/-- Claim C3 (amended): remapping the record tree rewrites `directory`
to `"/C/repo"` and the nested field to `"/C/repo/src/x.ts"`, as claimed;
the field `"/A/B/repo2"` is also rewritten, to `"/C/repo2"`, because the
check is character-prefix based and not path-component aware; a string
merely containing the old path in its interior is left unchanged. -/
theorem c3_amended :
    remapPaths c3Record "/A/B/repo" "/C/repo" =
      .obj (.cons "directory" (.str "/C/repo")
        (.cons "nested" (.obj (.cons "field" (.str "/C/repo/src/x.ts") .nil))
          (.cons "other" (.str "/C/repo2") .nil))) ∧
    remapPaths (.str "xx /A/B/repo yy") "/A/B/repo" "/C/repo" = .str "xx /A/B/repo yy" :=
  ⟨rfl, rfl⟩

/-- Claim C4 (counterexample): the prefix is not always textually
replaced by `newPath`: JavaScript string replacement substitutes dollar
escapes in the replacement text, so for `newPath` containing a dollar
sequence the source result differs from the textual replacement the
claim describes. -/
theorem c4_counterexample :
    remapPaths (Json.str "/a/x") "/a" "$&!" = Json.str "/a!/x" ∧
    specRemapPaths (Json.str "/a/x") "/a" "$&!" = Json.str "$&!/x" ∧
    ("/a!/x" : String) ≠ "$&!/x" :=
  ⟨rfl, rfl, by decide⟩

/-- Claim C4 (amended): whenever `newPath` contains no dollar character,
`remapPaths` is exactly the structure-preserving transform of the claim:
strings starting with `oldPath` have that prefix textually replaced by
`newPath`, arrays and objects are rebuilt with every contained value
remapped recursively, and all other scalars and non-matching strings
pass through unchanged. -/
theorem c4_amended (j : Json) (oldPath newPath : String)
    (hd : dollarChar ∉ newPath.data) :
    remapPaths j oldPath newPath = specRemapPaths j oldPath newPath :=
  remapPaths_eq_spec j oldPath newPath hd

/-- Witness for C4 at a concrete input with a dollar-free target. -/
theorem c4_witness :
    dollarChar ∉ ("/C/repo" : String).data ∧
    remapPaths c3Record "/A/B/repo" "/C/repo" =
      specRemapPaths c3Record "/A/B/repo" "/C/repo" :=
  ⟨by decide, c4_amended c3Record "/A/B/repo" "/C/repo" (by decide)⟩

theorem objKeys_remapObj (fs : JsonObj) (oldPath newPath : String) :
    objKeys (remapObj fs oldPath newPath) = objKeys fs :=
  match fs with
  | .nil => rfl
  | .cons k v tl => by
    simp only [remapObj, objKeys, objKeys_remapObj tl oldPath newPath]

/-- Claim C10: remapping an object rebuilds it with exactly the same
keys in the same order — keys are never rewritten, even when a key
starts with the old path; only bound values are transformed. -/
theorem c10_keys_preserved (fs : JsonObj) (oldPath newPath : String) :
    remapPaths (Json.obj fs) oldPath newPath = Json.obj (remapObj fs oldPath newPath) ∧
    objKeys (remapObj fs oldPath newPath) = objKeys fs :=
  ⟨rfl, objKeys_remapObj fs oldPath newPath⟩

/-! ## RepoResolver policy (claim C5) -/

theorem resolveProjectPath_exists_case (pe : String → Bool) (sr : String → List String)
    (op pn : String) (h : pe op = true) :
    resolveProjectPath pe sr op pn =
      { resolved := true, newPath := some op, requiresUserInput := false
        candidates := [op], error := none } := by
  simp [resolveProjectPath, h]

theorem resolveProjectPath_zero_case (pe : String → Bool) (sr : String → List String)
    (op pn : String) (h : pe op = false) (hz : dedupAcc [] (sr pn) = []) :
    resolveProjectPath pe sr op pn =
      { resolved := false, newPath := none, requiresUserInput := true
        candidates := []
        error := some ("Could not find repository " ++ pn ++ " on this machine") } := by
  simp [resolveProjectPath, h, findRepositoryByName, hz]

theorem resolveProjectPath_one_case (pe : String → Bool) (sr : String → List String)
    (op pn c : String) (h : pe op = false) (ho : dedupAcc [] (sr pn) = [c]) :
    resolveProjectPath pe sr op pn =
      { resolved := true, newPath := some c, requiresUserInput := false
        candidates := [c], error := none } := by
  simp [resolveProjectPath, h, findRepositoryByName, ho]

theorem resolveProjectPath_many_case (pe : String → Bool) (sr : String → List String)
    (op pn : String) (h : pe op = false) (hm : 2 ≤ (dedupAcc [] (sr pn)).length) :
    resolveProjectPath pe sr op pn =
      { resolved := false, newPath := none, requiresUserInput := true
        candidates := dedupAcc [] (sr pn), error := none } := by
  have hne : ¬ (dedupAcc [] (sr pn)).length = 0 := by omega
  have hne1 : ¬ (dedupAcc [] (sr pn)).length = 1 := by omega
  simp [resolveProjectPath, h, findRepositoryByName, hne, hne1, Nat.pos_iff_ne_zero]

/-- Claim C5: the resolver uses an existing original path unchanged
without consulting the search at all; with zero discovered candidates it
reports an unresolved result requiring user input with an empty
candidate list; with exactly one candidate it resolves to it
automatically; with several candidates it refuses to choose, requiring
user input and returning the candidate list. -/
theorem c5_resolveProjectPath (pe : String → Bool) (sr : String → List String)
    (op pn : String) :
    (pe op = true →
      resolveProjectPath pe sr op pn =
        { resolved := true, newPath := some op, requiresUserInput := false
          candidates := [op], error := none } ∧
      ∀ sr2, resolveProjectPath pe sr2 op pn = resolveProjectPath pe sr op pn) ∧
    (pe op = false → dedupAcc [] (sr pn) = [] →
      resolveProjectPath pe sr op pn =
        { resolved := false, newPath := none, requiresUserInput := true
          candidates := []
          error := some ("Could not find repository " ++ pn ++ " on this machine") }) ∧
    (∀ c, pe op = false → dedupAcc [] (sr pn) = [c] →
      resolveProjectPath pe sr op pn =
        { resolved := true, newPath := some c, requiresUserInput := false
          candidates := [c], error := none }) ∧
    (pe op = false → 2 ≤ (dedupAcc [] (sr pn)).length →
      resolveProjectPath pe sr op pn =
        { resolved := false, newPath := none, requiresUserInput := true
          candidates := dedupAcc [] (sr pn), error := none }) := by
  refine ⟨fun h => ⟨resolveProjectPath_exists_case pe sr op pn h, fun sr2 => ?_⟩,
    fun h hz => resolveProjectPath_zero_case pe sr op pn h hz,
    fun c h ho => resolveProjectPath_one_case pe sr op pn c h ho,
    fun h hm => resolveProjectPath_many_case pe sr op pn h hm⟩
  rw [resolveProjectPath_exists_case pe sr2 op pn h, resolveProjectPath_exists_case pe sr op pn h]

/-- Witness for C5: each policy case at a concrete input. -/
theorem c5_witness :
    ((fun _ : String => true) "/A/B/repo" = true ∧
      resolveProjectPath (fun _ => true) (fun _ => ["/r/repo"]) "/A/B/repo" "repo" =
        { resolved := true, newPath := some "/A/B/repo", requiresUserInput := false
          candidates := ["/A/B/repo"], error := none }) ∧
    (dedupAcc [] ((fun _ : String => ([] : List String)) "repo") = [] ∧
      resolveProjectPath (fun _ => false) (fun _ => []) "/A/B/repo" "repo" =
        { resolved := false, newPath := none, requiresUserInput := true
          candidates := []
          error := some ("Could not find repository " ++ "repo" ++ " on this machine") }) ∧
    (resolveProjectPath (fun _ => false) (fun _ => ["/r/repo", "/r/repo"]) "/A/B/repo" "repo" =
      { resolved := true, newPath := some "/r/repo", requiresUserInput := false
        candidates := ["/r/repo"], error := none }) ∧
    (resolveProjectPath (fun _ => false) (fun _ => ["/r/repo", "/q/repo"]) "/A/B/repo" "repo" =
      { resolved := false, newPath := none, requiresUserInput := true
        candidates := ["/r/repo", "/q/repo"], error := none }) :=
  ⟨⟨rfl, (c5_resolveProjectPath (fun _ => true) (fun _ => ["/r/repo"]) "/A/B/repo" "repo").1
      rfl |>.1⟩,
    ⟨rfl, (c5_resolveProjectPath (fun _ => false) (fun _ => []) "/A/B/repo" "repo").2.1
      rfl rfl⟩,
    (c5_resolveProjectPath (fun _ => false) (fun _ => ["/r/repo", "/r/repo"]) "/A/B/repo"
      "repo").2.2.1 "/r/repo" rfl (by decide),
    (c5_resolveProjectPath (fun _ => false) (fun _ => ["/r/repo", "/q/repo"]) "/A/B/repo"
      "repo").2.2.2 rfl (by decide)⟩

/-! ## Archive id slug (claim C8)

`toKebabCase` (the source's lowercase, collapse, trim, re-collapse
pipeline) is proved equal to `slugSpec` (the specification's wording:
the maximal alphanumeric runs of the lowered title joined by single
hyphens). -/

theorem alnum_ne_hyphen {c : Char} (h : isLowerAlnum c = true) : ¬ c = hyphenChar := by
  intro hh
  subst hh
  exact absurd h (by decide)

theorem collapseTrue_head (l : List Char) :
    collapseNonAlnum true l = [] ∨
      ∃ c t, collapseNonAlnum true l = c :: t ∧ isLowerAlnum c = true := by
  induction l with
  | nil => exact Or.inl rfl
  | cons c cs ih =>
    by_cases hc : isLowerAlnum c = true
    · exact Or.inr ⟨c, collapseNonAlnum false cs, by simp [collapseNonAlnum, hc], hc⟩
    · simpa [collapseNonAlnum, hc] using ih

theorem consHead_ne_nil (c : Char) (ws : List (List Char)) : consHead c ws ≠ [] := by
  cases ws <;> simp [consHead]

theorem intercalate_consHead (c : Char) (ws : List (List Char)) :
    intercalateHyphen (consHead c ws) = c :: intercalateHyphen ws := by
  match ws with
  | [] => rfl
  | [w] => rfl
  | w :: w2 :: ws2 => rfl

theorem alnumWords_sound (l : List Char) :
    ∀ w ∈ alnumWords l, w ≠ [] ∧ ∀ c ∈ w, isLowerAlnum c = true := by
  induction l with
  | nil => intro w hw; exact absurd hw (by simp [alnumWords])
  | cons c cs ih =>
    intro w hw
    by_cases hc : isLowerAlnum c = true
    · by_cases hh : headAlnum cs = true
      · rw [alnumWords, if_pos hc, if_pos hh] at hw
        match hws : alnumWords cs, hw with
        | [], hw =>
          simp only [consHead, List.mem_singleton] at hw
          subst hw
          exact ⟨by simp, by simpa using hc⟩
        | w1 :: ws1, hw =>
          simp only [consHead, List.mem_cons] at hw
          rcases hw with hw | hw
          · subst hw
            have h1 := ih w1 (by rw [hws]; exact List.mem_cons_self _ _)
            refine ⟨by simp, ?_⟩
            intro x hx
            rcases List.mem_cons.mp hx with hx | hx
            · subst hx; exact hc
            · exact h1.2 x hx
          · exact ih w (by rw [hws]; exact List.mem_cons_of_mem _ hw)
      · rw [alnumWords, if_pos hc, if_neg hh] at hw
        rcases List.mem_cons.mp hw with hw | hw
        · subst hw
          exact ⟨by simp, by intro x hx; simp only [List.mem_singleton] at hx; subst hx; exact hc⟩
        · exact ih w hw
    · rw [alnumWords, if_neg hc] at hw
      exact ih w hw

theorem collapseTrue_words (l : List Char) :
    collapseNonAlnum true l = intercalateHyphen (alnumWords l) ∨
      (collapseNonAlnum true l = intercalateHyphen (alnumWords l) ++ [hyphenChar] ∧
        alnumWords l ≠ []) := by
  induction l with
  | nil => exact Or.inl rfl
  | cons c cs ih =>
    by_cases hc : isLowerAlnum c = true
    · rw [collapseNonAlnum, if_pos hc]
      by_cases hh : headAlnum cs = true
      · have hfalse : collapseNonAlnum false cs = collapseNonAlnum true cs := by
          match cs, hh with
          | d :: ds, hh =>
            have hd : isLowerAlnum d = true := by simpa [headAlnum] using hh
            simp [collapseNonAlnum, hd]
        rw [alnumWords, if_pos hc, if_pos hh, intercalate_consHead, hfalse]
        rcases ih with ih | ⟨ih, hne⟩
        · exact Or.inl (by rw [ih])
        · exact Or.inr ⟨by rw [ih]; simp, consHead_ne_nil c _⟩
      · match cs, hh, ih with
        | [], _, _ =>
          refine Or.inl ?_
          simp [collapseNonAlnum, alnumWords, headAlnum, intercalateHyphen, hc]
        | d :: ds, hh, ih =>
          have hd : ¬ isLowerAlnum d = true := by simpa [headAlnum] using hh
          have hfalse : collapseNonAlnum false (d :: ds) =
              hyphenChar :: collapseNonAlnum true (d :: ds) := by
            simp [collapseNonAlnum, hd]
          rw [alnumWords, if_pos hc, if_neg (by simpa [headAlnum] using hd), hfalse]
          rcases ih with ih | ⟨ih, hne⟩
          · match hws : alnumWords (d :: ds), ih with
            | [], ih =>
              simp only [intercalateHyphen] at ih
              refine Or.inr ⟨?_, by simp⟩
              rw [ih]
              simp [intercalateHyphen]
            | w1 :: ws1, ih =>
              refine Or.inl ?_
              rw [ih]
              simp [intercalateHyphen]
          · match hws : alnumWords (d :: ds), ih, hne with
            | [], _, hne => exact absurd rfl hne
            | w1 :: ws1, ih, _ =>
              refine Or.inr ⟨?_, by simp⟩
              rw [ih]
              simp [intercalateHyphen]
    · rw [collapseNonAlnum, if_neg hc, if_pos rfl, alnumWords, if_neg hc]
      exact ih

theorem trimLeading_collapse (l : List Char) :
    trimLeadingHyphens (collapseNonAlnum false l) = collapseNonAlnum true l := by
  match l with
  | [] => rfl
  | c :: cs =>
    by_cases hc : isLowerAlnum c = true
    · have hch := alnum_ne_hyphen hc
      simp [collapseNonAlnum, hc, trimLeadingHyphens, List.dropWhile_cons, hch]
    · have h1 : collapseNonAlnum false (c :: cs) = hyphenChar :: collapseNonAlnum true cs := by
        simp [collapseNonAlnum, hc]
      have h2 : collapseNonAlnum true (c :: cs) = collapseNonAlnum true cs := by
        simp [collapseNonAlnum, hc]
      rw [h1, h2, trimLeadingHyphens]
      simp only [List.dropWhile_cons, decide_eq_true_eq, if_pos rfl]
      rcases collapseTrue_head cs with h3 | ⟨d, t, h3, hd⟩
      · rw [h3]; rfl
      · rw [h3]
        simp [List.dropWhile_cons, alnum_ne_hyphen hd]

theorem trimTrailing_append_hyphen (x : List Char) :
    trimTrailingHyphens (x ++ [hyphenChar]) = trimTrailingHyphens x := by
  simp [trimTrailingHyphens, List.dropWhile_cons]

theorem trimTrailing_of_last_alnum (x : List Char)
    (h : x = [] ∨ ∃ c, x.getLast? = some c ∧ isLowerAlnum c = true) :
    trimTrailingHyphens x = x := by
  rcases h with h | ⟨c, hc, ha⟩
  · subst h; rfl
  · have hrev : x.reverse.head? = some c := by
      rw [List.head?_reverse]; exact hc
    match hx : x.reverse, hrev with
    | d :: t, hrev =>
      have hd : d = c := by simpa using hrev
      subst hd
      rw [trimTrailingHyphens, hx]
      simp only [List.dropWhile_cons, decide_eq_true_eq, if_neg (alnum_ne_hyphen ha)]
      rw [← hx, List.reverse_reverse]

theorem intercalate_getLast (ws : List (List Char)) (hne : ws ≠ [])
    (hok : ∀ w ∈ ws, w ≠ [] ∧ ∀ c ∈ w, isLowerAlnum c = true) :
    ∃ c, (intercalateHyphen ws).getLast? = some c ∧ isLowerAlnum c = true := by
  induction ws with
  | nil => exact absurd rfl hne
  | cons w ws2 ih =>
    match ws2, ih with
    | [], _ =>
      have hw := hok w (List.mem_cons_self _ _)
      refine ⟨(w.getLast hw.1), ?_, hw.2 _ (List.getLast_mem hw.1)⟩
      show (intercalateHyphen [w]).getLast? = _
      have hw1 : intercalateHyphen [w] = w := rfl
      rw [hw1, List.getLast?_eq_getLast w hw.1]
    | w2 :: ws3, ih =>
      have hok2 : ∀ u ∈ w2 :: ws3, u ≠ [] ∧ ∀ c ∈ u, isLowerAlnum c = true := by
        intro u hu; exact hok u (List.mem_cons_of_mem _ hu)
      rcases ih (by simp) hok2 with ⟨c, hc, ha⟩
      refine ⟨c, ?_, ha⟩
      have h1 : intercalateHyphen (w :: w2 :: ws3) =
          w ++ hyphenChar :: intercalateHyphen (w2 :: ws3) := rfl
      rw [h1, List.getLast?_append_cons]
      rcases List.exists_cons_of_ne_nil (hok2 w2 (List.mem_cons_self _ _)).1 with ⟨a, as, ha2⟩
      have hne2 : intercalateHyphen (w2 :: ws3) ≠ [] := by
        intro hnil
        rw [hnil] at hc
        simp at hc
      rcases List.exists_cons_of_ne_nil hne2 with ⟨b, bs, hb⟩
      rw [hb, List.getLast?_cons_cons, ← hb, hc]

theorem collapseHR_alnum_prefix (w rest : List Char)
    (hok : ∀ c ∈ w, isLowerAlnum c = true) :
    collapseHyphenRuns false (w ++ rest) = w ++ collapseHyphenRuns false rest := by
  induction w with
  | nil => rfl
  | cons c cs ih =>
    have hc := hok c (List.mem_cons_self _ _)
    have ih2 := ih (fun x hx => hok x (List.mem_cons_of_mem _ hx))
    simp only [List.cons_append, collapseHyphenRuns, if_neg (alnum_ne_hyphen hc)]
    exact congrArg (c :: ·) ih2

theorem collapseHR_intercalate (ws : List (List Char))
    (hok : ∀ w ∈ ws, w ≠ [] ∧ ∀ c ∈ w, isLowerAlnum c = true) :
    collapseHyphenRuns false (intercalateHyphen ws) = intercalateHyphen ws := by
  induction ws with
  | nil => rfl
  | cons w ws2 ih =>
    match ws2, ih with
    | [], _ =>
      have hw := hok w (List.mem_cons_self _ _)
      have : intercalateHyphen [w] = w ++ [] := by simp [intercalateHyphen]
      rw [this, collapseHR_alnum_prefix w [] hw.2]
      rfl
    | w2 :: ws3, ih =>
      have hok2 : ∀ u ∈ w2 :: ws3, u ≠ [] ∧ ∀ c ∈ u, isLowerAlnum c = true := by
        intro u hu; exact hok u (List.mem_cons_of_mem _ hu)
      have hw := hok w (List.mem_cons_self _ _)
      have h1 : intercalateHyphen (w :: w2 :: ws3) =
          w ++ hyphenChar :: intercalateHyphen (w2 :: ws3) := rfl
      rcases List.exists_cons_of_ne_nil (hok2 w2 (List.mem_cons_self _ _)).1 with ⟨a, as, ha⟩
      have hhead : ∃ t, intercalateHyphen (w2 :: ws3) = a :: t := by
        match ws3 with
        | [] => exact ⟨as, by simp [intercalateHyphen, ha]⟩
        | w3 :: ws4 => exact ⟨as ++ hyphenChar :: intercalateHyphen (w3 :: ws4),
            by simp [intercalateHyphen, ha]⟩
      rcases hhead with ⟨t, ht⟩
      have ha2 : isLowerAlnum a = true := by
        refine (hok2 w2 (List.mem_cons_self _ _)).2 a ?_
        rw [ha]; exact List.mem_cons_self _ _
      rw [h1, collapseHR_alnum_prefix w _ hw.2]
      have h3 : collapseHyphenRuns false (hyphenChar :: intercalateHyphen (w2 :: ws3)) =
          hyphenChar :: collapseHyphenRuns false (intercalateHyphen (w2 :: ws3)) := by
        rw [ht]
        have hna : ¬ a = hyphenChar := alnum_ne_hyphen ha2
        simp [collapseHyphenRuns, hna]
      rw [h3, ih hok2]

theorem toKebabCase_eq_slugSpec (s : String) : toKebabCase s = slugSpec s := by
  unfold toKebabCase slugSpec
  congr 1
  rw [trimLeading_collapse]
  rcases collapseTrue_words (s.data.map jsToLowerChar) with h | ⟨h, hne⟩
  · rw [h]
    rw [trimTrailing_of_last_alnum]
    · exact collapseHR_intercalate _ (alnumWords_sound _)
    · match hws : alnumWords (s.data.map jsToLowerChar) with
      | [] => exact Or.inl (by simp [intercalateHyphen])
      | w :: ws =>
        exact Or.inr (intercalate_getLast (w :: ws) (by simp)
          (by rw [← hws]; exact alnumWords_sound _))
  · rw [h, trimTrailing_append_hyphen]
    rw [trimTrailing_of_last_alnum]
    · exact collapseHR_intercalate _ (alnumWords_sound _)
    · rcases hws : alnumWords (s.data.map jsToLowerChar) with _ | ⟨w, ws⟩
      · exact absurd hws hne
      · exact Or.inr (intercalate_getLast (w :: ws) (by simp)
          (by rw [← hws]; exact alnumWords_sound _))

/-- Claim C8: the archive id is the date, a hyphen, and the slug of the
session title, where the slug is the lower-cased title with runs of
non-alphanumeric characters collapsed to single hyphens and leading and
trailing hyphens trimmed (equivalently: the lowered title's maximal
alphanumeric runs joined by single hyphens); for title `Fix bug` on
`2025-01-15` the archive id is `2025-01-15-fix-bug`. -/
theorem c8_archiveId :
    (∀ t : String, toKebabCase t = slugSpec t) ∧
    builtArchiveId descFixBug "2025-01-15" = some "2025-01-15-fix-bug" :=
  ⟨toKebabCase_eq_slugSpec, rfl⟩

/-! ## Record store lemmas -/

theorem stripPrefixSegs_self (p : FsPath) : stripPrefixSegs p p = some [] := by
  induction p with
  | nil => rfl
  | cons a as ih => simp [stripPrefixSegs, ih]

theorem storeLookup_append_of_some {l1 : Store} (l2 : Store) {p : FsPath} {c : FileContent}
    (h : storeLookup l1 p = some c) : storeLookup (l1 ++ l2) p = some c := by
  induction l1 with
  | nil => exact absurd h (by simp [storeLookup])
  | cons e rest ih =>
    rw [storeLookup] at h
    rw [List.cons_append, storeLookup]
    by_cases he : e.1 = p
    · rw [if_pos he] at h ⊢; exact h
    · rw [if_neg he] at h ⊢; exact ih h

theorem storeLookup_append_of_none {l1 : Store} (l2 : Store) {p : FsPath}
    (h : storeLookup l1 p = none) : storeLookup (l1 ++ l2) p = storeLookup l2 p := by
  induction l1 with
  | nil => simp
  | cons e rest ih =>
    rw [storeLookup] at h
    rw [List.cons_append, storeLookup]
    by_cases he : e.1 = p
    · rw [if_pos he] at h; exact absurd h (by simp)
    · rw [if_neg he] at h ⊢; exact ih h

theorem storeLookup_of_forall_ne {l : Store} {p : FsPath}
    (h : ∀ e ∈ l, e.1 ≠ p) : storeLookup l p = none := by
  induction l with
  | nil => rfl
  | cons e rest ih =>
    rw [storeLookup, if_neg (h e (List.mem_cons_self _ _))]
    exact ih (fun x hx => h x (List.mem_cons_of_mem _ hx))

theorem storeLookup_mem {l : Store} {p : FsPath} {c : FileContent}
    (h : storeLookup l p = some c) : (p, c) ∈ l := by
  induction l with
  | nil => exact absurd h (by simp [storeLookup])
  | cons e rest ih =>
    rw [storeLookup] at h
    by_cases he : e.1 = p
    · rw [if_pos he] at h
      have h2 : e = (p, c) := by
        cases e
        simp_all
      rw [h2]
      exact List.mem_cons_self _ _
    · rw [if_neg he] at h
      exact List.mem_cons_of_mem _ (ih h)

theorem storeSet_lookup_same (st : Store) (p : FsPath) (c : FileContent) :
    storeLookup (storeSet st p c) p = some c := by
  induction st with
  | nil => simp [storeSet, storeLookup]
  | cons e rest ih =>
    rw [storeSet]
    by_cases he : e.1 = p
    · rw [if_pos he, storeLookup, if_pos rfl]
    · rw [if_neg he, storeLookup, if_neg he]
      exact ih

theorem storeSet_lookup_other (st : Store) {p q : FsPath} (c : FileContent)
    (h : q ≠ p) : storeLookup (storeSet st p c) q = storeLookup st q := by
  have hpq : ¬ p = q := fun hh => h hh.symm
  induction st with
  | nil =>
    show storeLookup [(p, c)] q = storeLookup [] q
    simp [storeLookup, hpq]
  | cons e rest ih =>
    rw [storeSet]
    by_cases he : e.1 = p
    · rw [if_pos he]
      simp only [storeLookup]
      have h2 : ¬ e.1 = q := by rw [he]; exact hpq
      rw [if_neg hpq, if_neg h2]
    · rw [if_neg he]
      simp only [storeLookup]
      by_cases heq : e.1 = q
      · rw [if_pos heq, if_pos heq]
      · rw [if_neg heq, if_neg heq]
        exact ih

theorem mem_storeSet_self (st : Store) (p : FsPath) (c : FileContent) :
    (p, c) ∈ storeSet st p c := by
  induction st with
  | nil => simp [storeSet]
  | cons e rest ih =>
    rw [storeSet]
    by_cases h : e.1 = p
    · rw [if_pos h]
      exact List.mem_cons_self _ _
    · rw [if_neg h]
      exact List.mem_cons_of_mem _ ih

theorem mem_storeSet_of_ne (st : Store) {p : FsPath} (c : FileContent)
    {e : FsPath × FileContent} (he : e ∈ st) (hne : e.1 ≠ p) : e ∈ storeSet st p c := by
  induction st with
  | nil => exact absurd he (by simp)
  | cons e2 rest ih =>
    rw [storeSet]
    rcases List.mem_cons.mp he with h2 | h2
    · subst h2
      rw [if_neg hne]
      exact List.mem_cons_self _ _
    · by_cases h : e2.1 = p
      · rw [if_pos h]
        exact List.mem_cons_of_mem _ h2
      · rw [if_neg h]
        exact List.mem_cons_of_mem _ (ih h2)

theorem pathExistsFS_of_lookup {st : Store} {p : FsPath} {c : FileContent}
    (h : storeLookup st p = some c) : pathExistsFS st p = true := by
  have hm := storeLookup_mem h
  unfold pathExistsFS
  rw [List.any_eq_true]
  exact ⟨(p, c), hm, by simp [stripPrefixSegs_self]⟩

theorem pathExistsFS_storeSet_mono {st : Store} {q : FsPath} (p : FsPath) (c : FileContent)
    (h : pathExistsFS st q = true) : pathExistsFS (storeSet st p c) q = true := by
  unfold pathExistsFS at *
  rw [List.any_eq_true] at h
  rcases h with ⟨e, he, hstrip⟩
  rw [List.any_eq_true]
  by_cases hep : e.1 = p
  · rw [hep] at hstrip
    exact ⟨(p, c), mem_storeSet_self st p c, hstrip⟩
  · exact ⟨e, mem_storeSet_of_ne st c he hep, hstrip⟩

theorem filesUnder_eq_nil_of_not_exists {st : Store} {dir : FsPath}
    (h : pathExistsFS st dir = false) : filesUnder st dir = [] := by
  unfold pathExistsFS at h
  rw [List.any_eq_false] at h
  unfold filesUnder
  rw [List.filter_eq_nil_iff]
  intro e he
  have h2 := h e he
  unfold underDir
  match hs : stripPrefixSegs dir e.1 with
  | none => simp
  | some [] => simp
  | some (x :: xs) =>
    exfalso
    rw [hs] at h2
    simp at h2

/-! ## Copy phase lemmas -/

theorem copyDirRecursive_count (t : Option (FsPath → FileContent → FileContent)) :
    ∀ (src : Store) (dest : Store), (copyDirRecursive t src dest).1 = src.length
  | [], _ => rfl
  | (p, c) :: rest, dest => by
    rw [copyDirRecursive]
    by_cases he : pathExistsFS dest p = true
    · rw [if_pos he]
      simp [copyDirRecursive_count t rest dest]
    · rw [if_neg he]
      simp [copyDirRecursive_count t rest _]

theorem copyDirRecursive_preserves (t : Option (FsPath → FileContent → FileContent)) :
    ∀ (src : Store) (dest : Store) {q : FsPath} {c : FileContent},
      storeLookup dest q = some c → storeLookup (copyDirRecursive t src dest).2 q = some c
  | [], _, _, _, h => h
  | (p, c0) :: rest, dest, q, c, h => by
    rw [copyDirRecursive]
    by_cases he : pathExistsFS dest p = true
    · rw [if_pos he]
      exact copyDirRecursive_preserves t rest dest h
    · rw [if_neg he]
      have hqp : q ≠ p := by
        intro hh
        subst hh
        exact absurd (pathExistsFS_of_lookup h) he
      refine copyDirRecursive_preserves t rest _ ?_
      rw [storeSet_lookup_other dest _ hqp]
      exact h

theorem copyDirRecursive_exists_mono (t : Option (FsPath → FileContent → FileContent)) :
    ∀ (src : Store) (dest : Store) {q : FsPath},
      pathExistsFS dest q = true → pathExistsFS (copyDirRecursive t src dest).2 q = true
  | [], _, _, h => h
  | (p, c0) :: rest, dest, q, h => by
    rw [copyDirRecursive]
    by_cases he : pathExistsFS dest p = true
    · rw [if_pos he]
      exact copyDirRecursive_exists_mono t rest dest h
    · rw [if_neg he]
      exact copyDirRecursive_exists_mono t rest _ (pathExistsFS_storeSet_mono _ _ h)

theorem copyDirRecursive_skip_all (t : Option (FsPath → FileContent → FileContent)) :
    ∀ (src : Store) (dest : Store),
      (∀ e ∈ src, pathExistsFS dest e.1 = true) → (copyDirRecursive t src dest).2 = dest
  | [], _, _ => rfl
  | (p, c0) :: rest, dest, h => by
    rw [copyDirRecursive]
    rw [if_pos (h (p, c0) (List.mem_cons_self _ _))]
    exact copyDirRecursive_skip_all t rest dest
      (fun e he => h e (List.mem_cons_of_mem _ he))

theorem copyDirRecursive_exists_after (t : Option (FsPath → FileContent → FileContent)) :
    ∀ (src : Store) (dest : Store),
      ∀ e ∈ src, pathExistsFS (copyDirRecursive t src dest).2 e.1 = true
  | [], _, e, he => absurd he (by simp)
  | (p, c0) :: rest, dest, e, he => by
    rw [copyDirRecursive]
    by_cases hex : pathExistsFS dest p = true
    · rw [if_pos hex]
      rcases List.mem_cons.mp he with he2 | he2
      · subst he2
        exact copyDirRecursive_exists_mono t rest dest hex
      · exact copyDirRecursive_exists_after t rest dest e he2
    · rw [if_neg hex]
      rcases List.mem_cons.mp he with he2 | he2
      · subst he2
        refine copyDirRecursive_exists_mono t rest _ ?_
        exact pathExistsFS_of_lookup (storeSet_lookup_same dest _ _)
      · exact copyDirRecursive_exists_after t rest _ e he2

theorem copyDirRecursive_head_fresh (t : Option (FsPath → FileContent → FileContent))
    (p : FsPath) (c : FileContent) (rest : Store) (dest : Store)
    (h : pathExistsFS dest p = false) :
    storeLookup (copyDirRecursive t ((p, c) :: rest) dest).2 p =
      some (copyWrittenContent t p c) := by
  rw [copyDirRecursive]
  rw [if_neg (by rw [h]; simp)]
  exact copyDirRecursive_preserves t rest _ (storeSet_lookup_same dest _ _)

/-! ## Merge phase and idempotent extraction (claim C1) -/

theorem mergePhase_count (a st : Store) :
    (mergePhase a st).1 =
      (filesUnder a ["storage"]).length + (filesUnder a ["snapshot"]).length := by
  unfold mergePhase
  by_cases h1 : pathExistsFS a ["storage"] = true
  · by_cases h2 : pathExistsFS a ["snapshot"] = true
    · simp [h1, h2, copyDirRecursive_count]
    · simp [h1, h2, copyDirRecursive_count,
        filesUnder_eq_nil_of_not_exists (Bool.eq_false_iff.mpr h2)]
  · by_cases h2 : pathExistsFS a ["snapshot"] = true
    · simp [h1, h2, copyDirRecursive_count,
        filesUnder_eq_nil_of_not_exists (Bool.eq_false_iff.mpr h1)]
    · simp [h1, h2, copyDirRecursive_count,
        filesUnder_eq_nil_of_not_exists (Bool.eq_false_iff.mpr h1),
        filesUnder_eq_nil_of_not_exists (Bool.eq_false_iff.mpr h2)]

theorem mergePhase_preserves (a st : Store) {q : FsPath} {c : FileContent}
    (h : storeLookup st q = some c) : storeLookup (mergePhase a st).2 q = some c := by
  unfold mergePhase
  by_cases h1 : pathExistsFS a ["storage"] = true <;>
    by_cases h2 : pathExistsFS a ["snapshot"] = true <;>
      simp [h1, h2, copyDirRecursive_preserves, h]

theorem mergePhase_storage_exists (a st : Store) :
    ∀ e ∈ filesUnder a ["storage"], pathExistsFS (mergePhase a st).2 e.1 = true := by
  intro e he
  unfold mergePhase
  have h1 : pathExistsFS a ["storage"] = true := by
    unfold pathExistsFS
    rw [List.any_eq_true]
    have he2 : e ∈ a ∧ underDir ["storage"] e.1 = true := by
      simpa [filesUnder] using he
    refine ⟨e, he2.1, ?_⟩
    have := he2.2
    unfold underDir at this
    match hs : stripPrefixSegs ["storage"] e.1 with
    | none => rw [hs] at this; simp at this
    | some t => simp [hs]
  rw [if_pos h1]
  by_cases h2 : pathExistsFS a ["snapshot"] = true
  · simp only [if_pos h2]
    exact copyDirRecursive_exists_mono _ _ _ (copyDirRecursive_exists_after _ _ _ e he)
  · simp only [if_neg h2]
    exact copyDirRecursive_exists_after _ _ _ e he

theorem mergePhase_snapshot_exists (a st : Store) :
    ∀ e ∈ filesUnder a ["snapshot"], pathExistsFS (mergePhase a st).2 e.1 = true := by
  intro e he
  unfold mergePhase
  have h2 : pathExistsFS a ["snapshot"] = true := by
    unfold pathExistsFS
    rw [List.any_eq_true]
    have he2 : e ∈ a ∧ underDir ["snapshot"] e.1 = true := by
      simpa [filesUnder] using he
    refine ⟨e, he2.1, ?_⟩
    have := he2.2
    unfold underDir at this
    match hs : stripPrefixSegs ["snapshot"] e.1 with
    | none => rw [hs] at this; simp at this
    | some t => simp [hs]
  by_cases h1 : pathExistsFS a ["storage"] = true
  · simp only [if_pos h1, if_pos h2]
    exact copyDirRecursive_exists_after _ _ _ e he
  · simp only [if_neg h1, if_pos h2]
    exact copyDirRecursive_exists_after _ _ _ e he

theorem mergePhase_skip_all (a st : Store)
    (hs : ∀ e ∈ filesUnder a ["storage"], pathExistsFS st e.1 = true)
    (hn : ∀ e ∈ filesUnder a ["snapshot"], pathExistsFS st e.1 = true) :
    (mergePhase a st).2 = st := by
  unfold mergePhase
  by_cases h1 : pathExistsFS a ["storage"] = true
  · simp only [if_pos h1, copyDirRecursive_skip_all _ _ _ hs]
    by_cases h2 : pathExistsFS a ["snapshot"] = true
    · simp only [if_pos h2, copyDirRecursive_skip_all _ _ _ hn]
    · simp only [if_neg h2]
  · simp only [if_neg h1]
    by_cases h2 : pathExistsFS a ["snapshot"] = true
    · simp only [if_pos h2, copyDirRecursive_skip_all _ _ _ hn]
    · simp only [if_neg h2]

theorem filesUnder_remapAllJsonFiles (a : Store) (o n : String) (dir : FsPath) :
    (filesUnder (remapAllJsonFiles a o n) dir).length = (filesUnder a dir).length := by
  unfold filesUnder remapAllJsonFiles
  rw [List.filter_map]
  rw [List.length_map]
  congr 1
  apply List.filter_congr
  intro e he
  cases e with
  | mk p c =>
    by_cases hj : strEndsWith (lastName p) ".json" = true
    · cases c <;> simp [hj]
    · simp [hj]

theorem filesUnder_partition (st : Store)
    (h : ∀ e ∈ st, (∃ rest, e.1 = "storage" :: rest ∧ rest ≠ []) ∨
      (∃ rest, e.1 = "snapshot" :: rest ∧ rest ≠ [])) :
    (filesUnder st ["storage"]).length + (filesUnder st ["snapshot"]).length = st.length := by
  induction st with
  | nil => rfl
  | cons e rest ih =>
    have ih2 := ih (fun x hx => h x (List.mem_cons_of_mem _ hx))
    rcases h e (List.mem_cons_self _ _) with ⟨r, hr, hrne⟩ | ⟨r, hr, hrne⟩ <;>
      rcases List.exists_cons_of_ne_nil hrne with ⟨x, xs, hx⟩
    · have h1 : underDir ["storage"] e.1 = true := by
        rw [hr, hx]; simp [underDir, stripPrefixSegs]
      have h2 : underDir ["snapshot"] e.1 = false := by
        rw [hr]; simp [underDir, stripPrefixSegs]
      simp only [filesUnder, List.filter_cons, h1, h2]
      simp only [List.length_cons, Bool.false_eq_true, if_false, if_true]
      unfold filesUnder at ih2
      omega
    · have h1 : underDir ["storage"] e.1 = false := by
        rw [hr]; simp [underDir, stripPrefixSegs]
      have h2 : underDir ["snapshot"] e.1 = true := by
        rw [hr, hx]; simp [underDir, stripPrefixSegs]
      simp only [filesUnder, List.filter_cons, h1, h2]
      simp only [List.length_cons, Bool.false_eq_true, if_false, if_true]
      unfold filesUnder at ih2
      omega

theorem remapStage_arch2 {v : String → Bool} {arch : Store} {sd : SessionData}
    {rm : Option String} {arch2 : Store} {pr : Bool} {np : Option String}
    (h : remapStage v arch sd rm = .ok (arch2, pr, np)) :
    arch2 = arch ∨ ∃ o n2, arch2 = remapAllJsonFiles arch o n2 := by
  unfold remapStage at h
  split at h
  · split at h
    · cases h
      exact Or.inl rfl
    · split at h
      · cases h
        exact Or.inr ⟨_, _, rfl⟩
      · exact absurd h (by simp)
  · cases h
    exact Or.inl rfl

theorem remapStage_count {v : String → Bool} {arch : Store} {sd : SessionData}
    {rm : Option String} {arch2 : Store} {pr : Bool} {np : Option String}
    (h : remapStage v arch sd rm = .ok (arch2, pr, np)) (dir : FsPath) :
    (filesUnder arch2 dir).length = (filesUnder arch dir).length := by
  rcases remapStage_arch2 h with h2 | ⟨o, n2, h2⟩
  · rw [h2]
  · rw [h2, filesUnder_remapAllJsonFiles]

theorem extract_idempotent_core (v : String → Bool) (arch store : Store)
    (rm : Option String) (r : ExtractResult) (st2 : Store)
    (harch : ∀ e ∈ arch, (∃ rest, e.1 = "storage" :: rest ∧ rest ≠ []) ∨
      (∃ rest, e.1 = "snapshot" :: rest ∧ rest ≠ []))
    (hrun : extractSessionArchive v arch store rm = .ok (r, st2)) :
    (∀ p c, storeLookup store p = some c → storeLookup st2 p = some c) ∧
    extractSessionArchive v arch st2 rm = .ok (r, st2) ∧
    r.fileCount = arch.length := by
  unfold extractSessionArchive at hrun
  cases hfa : findArchiveSession arch with
  | error e => rw [hfa] at hrun; exact absurd hrun (by simp)
  | ok sd =>
    rw [hfa] at hrun
    dsimp only at hrun
    cases hrs : remapStage v arch sd rm with
    | error e => rw [hrs] at hrun; exact absurd hrun (by simp)
    | ok triple =>
      obtain ⟨arch2, pr, np⟩ := triple
      rw [hrs] at hrun
      dsimp only at hrun
      cases hft : finalTitleRead (mergePhase arch2 store).2
          ["storage", "session", sd.projectID, sd.id ++ ".json"] sd.title with
      | error e => rw [hft] at hrun; exact absurd hrun (by simp)
      | ok tt =>
        rw [hft] at hrun
        dsimp only at hrun
        simp only [Except.ok.injEq, Prod.mk.injEq] at hrun
        obtain ⟨hr, hst⟩ := hrun
        subst hst
        subst hr
        have hcount : (mergePhase arch2 store).1 = arch.length := by
          rw [mergePhase_count, remapStage_count hrs, remapStage_count hrs,
            filesUnder_partition arch harch]
        refine ⟨fun p c hc => mergePhase_preserves arch2 store hc, ?_, hcount⟩
        unfold extractSessionArchive
        rw [hfa]
        dsimp only
        rw [hrs]
        dsimp only
        have hsk : (mergePhase arch2 (mergePhase arch2 store).2).2 =
            (mergePhase arch2 store).2 :=
          mergePhase_skip_all _ _
            (fun e he => mergePhase_storage_exists arch2 store e he)
            (fun e he => mergePhase_snapshot_exists arch2 store e he)
        rw [hsk, hft]
        dsimp only
        rw [mergePhase_count arch2 (mergePhase arch2 store).2, mergePhase_count arch2 store]


/-- Claim C1: extraction never overwrites an existing destination file
(every file present before extraction has identical content after, and
existing files are still counted), so extracting the same archive a
second time into the same destination succeeds, changes nothing on
disk, returns the same result, and reports a fileCount equal to the
total file count of the archive. -/
theorem c1_extract_idempotent (v : String → Bool) (arch store : Store)
    (rm : Option String) (r : ExtractResult) (st2 : Store)
    (harch : ∀ e ∈ arch, (∃ rest, e.1 = "storage" :: rest ∧ rest ≠ []) ∨
      (∃ rest, e.1 = "snapshot" :: rest ∧ rest ≠ []))
    (hrun : extractSessionArchive v arch store rm = .ok (r, st2)) :
    (∀ p c, storeLookup store p = some c → storeLookup st2 p = some c) ∧
    extractSessionArchive v arch st2 rm = .ok (r, st2) ∧
    r.fileCount = arch.length :=
  extract_idempotent_core v arch store rm r st2 harch hrun

/-- Witness for C1: a one-file archive extracted twice into an empty
store. -/
theorem c1_witness :
    (∀ e ∈ c1Archive,
      (∃ rest, e.1 = "storage" :: rest ∧ rest ≠ []) ∨
        (∃ rest, e.1 = "snapshot" :: rest ∧ rest ≠ [])) ∧
    extractSessionArchive (fun _ => true) c1Archive [] none = .ok (c1Result, c1StoreAfter) ∧
    ((∀ p c, storeLookup [] p = some c → storeLookup c1StoreAfter p = some c) ∧
      extractSessionArchive (fun _ => true) c1Archive c1StoreAfter none =
        .ok (c1Result, c1StoreAfter) ∧
      c1Result.fileCount = c1Archive.length) :=
  have harch : ∀ e ∈ c1Archive,
      (∃ rest, e.1 = "storage" :: rest ∧ rest ≠ []) ∨
        (∃ rest, e.1 = "snapshot" :: rest ∧ rest ≠ []) := by
    intro e he
    rw [c1Archive, List.mem_singleton] at he
    subst he
    exact Or.inl ⟨["session", "p1", "s1.json"], rfl, by simp⟩
  ⟨harch, rfl,
    c1_extract_idempotent (fun _ => true) c1Archive [] none c1Result c1StoreAfter harch rfl⟩

/-! ## Collector error contract (claim C6) -/

theorem stripPrefixSegs_eq_append : ∀ {p q t : FsPath},
    stripPrefixSegs p q = some t → q = p ++ t
  | [], q, t, h => by
    simp only [stripPrefixSegs, Option.some.injEq] at h
    simpa using h
  | d :: ds, [], t, h => by simp [stripPrefixSegs] at h
  | d :: ds, x :: xs, t, h => by
    rw [stripPrefixSegs] at h
    by_cases hd : d = x
    · rw [if_pos hd] at h
      rw [List.cons_append, ← hd, stripPrefixSegs_eq_append h]
    · rw [if_neg hd] at h
      exact absurd h (by simp)

theorem mem_dedupAcc {x : String} : ∀ (seen l : List String),
    x ∈ dedupAcc seen l ↔ (x ∈ l ∧ x ∉ seen)
  | seen, [] => by simp [dedupAcc]
  | seen, y :: ys => by
    rw [dedupAcc]
    by_cases hy : y ∈ seen
    · rw [if_pos hy, mem_dedupAcc seen ys]
      constructor
      · rintro ⟨h1, h2⟩
        exact ⟨List.mem_cons_of_mem _ h1, h2⟩
      · rintro ⟨h1, h2⟩
        rcases List.mem_cons.mp h1 with h1 | h1
        · exact absurd (h1 ▸ hy) h2
        · exact ⟨h1, h2⟩
    · rw [if_neg hy]
      constructor
      · intro h
        rcases List.mem_cons.mp h with h | h
        · subst h
          exact ⟨List.mem_cons_self _ _, hy⟩
        · rw [mem_dedupAcc (y :: seen) ys] at h
          refine ⟨List.mem_cons_of_mem _ h.1, fun hs => h.2 (List.mem_cons_of_mem _ hs)⟩
      · rintro ⟨h1, h2⟩
        rcases List.mem_cons.mp h1 with h1 | h1
        · subst h1
          exact List.mem_cons_self _ _
        · by_cases hxy : x = y
          · subst hxy
            exact List.mem_cons_self _ _
          · refine List.mem_cons_of_mem _ ?_
            rw [mem_dedupAcc (y :: seen) ys]
            refine ⟨h1, fun hs => ?_⟩
            rcases List.mem_cons.mp hs with hs | hs
            · exact hxy hs
            · exact h2 hs

theorem mem_childNames {st : Store} {dir : FsPath} {x : String} :
    x ∈ childNames st dir ↔
      ∃ e ∈ st, (stripPrefixSegs dir e.1).bind List.head? = some x := by
  unfold childNames
  rw [mem_dedupAcc]
  constructor
  · intro h
    exact List.mem_filterMap.mp h.1
  · intro h
    exact ⟨List.mem_filterMap.mpr h, by simp⟩

theorem readMessageFiles_ne_notFound (st : Store) (sid : String) :
    ∀ names, readMessageFiles st sid names ≠ .error .notFound
  | [] => by simp [readMessageFiles]
  | name :: rest => by
    rw [readMessageFiles]
    by_cases hj : strEndsWith name ".json" = true
    · rw [if_pos hj]
      cases hlk : storeLookup st ["storage", "message", sid, name] with
      | none => simp
      | some c =>
        cases c with
        | rawFile s => simp
        | jsonFile j =>
          dsimp only
          cases hid : getStrField j "id" with
          | none => simp
          | some mid =>
            dsimp only
            cases hrec : readMessageFiles st sid rest with
            | ok l => simp
            | error e =>
              have hne := readMessageFiles_ne_notFound st sid rest
              rw [hrec] at hne
              simpa using hne
    · rw [if_neg hj]
      exact readMessageFiles_ne_notFound st sid rest

theorem findSessionFile_none_iff (st : Store) (sid : String)
    (hshape : ∀ e ∈ st, ∀ rest, e.1 = "storage" :: "session" :: rest → rest.length = 2) :
    findSessionFile st sid = none ↔
      ¬ ∃ pid c, (["storage", "session", pid, sid ++ ".json"], c) ∈ st := by
  constructor
  · intro h hex
    rcases hex with ⟨pid, c, hmem⟩
    unfold findSessionFile at h
    have hdir : pathExistsFS st ["storage", "session"] = true := by
      unfold pathExistsFS
      rw [List.any_eq_true]
      exact ⟨_, hmem, by simp [stripPrefixSegs]⟩
    rw [if_pos hdir] at h
    rw [List.findSome?_eq_none_iff] at h
    have hpid : pid ∈ childNames st ["storage", "session"] := by
      rw [mem_childNames]
      exact ⟨_, hmem, by simp [stripPrefixSegs]⟩
    have h2 := h pid hpid
    dsimp only at h2
    have hex4 : pathExistsFS st ["storage", "session", pid, sid ++ ".json"] = true := by
      unfold pathExistsFS
      rw [List.any_eq_true]
      exact ⟨_, hmem, by simp [stripPrefixSegs_self]⟩
    rw [hex4] at h2
    exact absurd h2 (by simp)
  · intro hnex
    unfold findSessionFile
    by_cases hdir : pathExistsFS st ["storage", "session"] = true
    · rw [if_pos hdir]
      rw [List.findSome?_eq_none_iff]
      intro pid hpid
      have hex4 : pathExistsFS st ["storage", "session", pid, sid ++ ".json"] = false := by
        by_cases h4 : pathExistsFS st ["storage", "session", pid, sid ++ ".json"] = true
        · exfalso
          unfold pathExistsFS at h4
          rw [List.any_eq_true] at h4
          rcases h4 with ⟨e, he, hstrip⟩
          rw [Option.isSome_iff_exists] at hstrip
          rcases hstrip with ⟨tail, htail⟩
          have heq := stripPrefixSegs_eq_append htail
          have hlen := hshape e he (pid :: (sid ++ ".json") :: tail) (by simpa using heq)
          simp only [List.length_cons] at hlen
          have htail2 : tail = [] := by
            cases tail with
            | nil => rfl
            | cons a as => simp at hlen
          subst htail2
          refine hnex ⟨pid, e.2, ?_⟩
          have he1 : e.1 = ["storage", "session", pid, sid ++ ".json"] := by
            simpa using heq
          rw [← he1]
          exact he
        · exact Bool.eq_false_iff.mpr h4
      dsimp only
      rw [hex4]
      simp
    · rw [if_neg hdir]

theorem collectSessionFiles_notFound_iff (st : Store) (sid : String) :
    collectSessionFiles st sid = .error .notFound ↔ findSessionFile st sid = none := by
  constructor
  · intro h
    unfold collectSessionFiles at h
    cases hf : findSessionFile st sid with
    | none => rfl
    | some pr =>
      obtain ⟨spath, projectId⟩ := pr
      rw [hf] at h
      dsimp only at h
      exfalso
      cases hlk : storeLookup st spath with
      | none =>
        rw [hlk] at h
        simp at h
      | some c =>
        cases c with
        | rawFile s =>
          rw [hlk] at h
          simp at h
        | jsonFile sj =>
          rw [hlk] at h
          dsimp only at h
          cases hrm : readMessageFiles st sid
              (if pathExistsFS st ["storage", "message", sid] = true then
                childNames st ["storage", "message", sid] else []) with
          | ok msgs =>
            rw [hrm] at h
            simp at h
          | error e =>
            rw [hrm] at h
            dsimp only at h
            have he : e = CollectError.notFound := by simpa using h
            subst he
            exact readMessageFiles_ne_notFound st sid _ hrm
  · intro h
    unfold collectSessionFiles
    rw [h]

/-- Claim C6: collection fails with the not-found error exactly when no
session document named after the session id exists under any project
subdirectory of the session index; a missing message directory (and
hence missing part directories) yields zero records of those kinds
rather than a failure. -/
theorem c6_collect_contract (st : Store) (sid : String)
    (hshape : ∀ e ∈ st, ∀ rest, e.1 = "storage" :: "session" :: rest → rest.length = 2) :
    ((collectSessionFiles st sid = .error .notFound) ↔
      ¬ ∃ pid c, (["storage", "session", pid, sid ++ ".json"], c) ∈ st) ∧
    (∀ spath pid sj, findSessionFile st sid = some (spath, pid) →
      storeLookup st spath = some (.jsonFile sj) →
      pathExistsFS st ["storage", "message", sid] = false →
      ∃ info, collectSessionFiles st sid = .ok info ∧
        info.files.filter (fun f =>
          match f.2 with
          | FileKind.message => true
          | FileKind.part => true
          | _ => false) = []) := by
  constructor
  · rw [collectSessionFiles_notFound_iff]
    exact findSessionFile_none_iff st sid hshape
  · intro spath pid sj hfind hlook hmsg
    unfold collectSessionFiles
    rw [hfind]
    dsimp only
    rw [hlook]
    dsimp only
    rw [hmsg]
    rw [if_neg (by simp : ¬ (false = true))]
    rw [show readMessageFiles st sid [] = .ok [] from rfl]
    dsimp only
    refine ⟨_, rfl, ?_⟩
    simp only [List.map_nil, List.nil_append]
    rw [show collectPartFiles st [] = [] from rfl]
    simp only [List.nil_append, List.filter_cons, List.filter_append]
    by_cases hd : pathExistsFS st ["storage", "session_diff", sid ++ ".json"] = true <;>
      by_cases hp : pathExistsFS st ["storage", "project", pid ++ ".json"] = true <;>
        by_cases hs : pathExistsFS st ["snapshot", pid] = true <;>
          simp [hd, hp, hs, List.filter_map, Function.comp]

/-- Witness for C6: a store holding exactly one session document and no
message directory. -/
theorem c6_witness :
    (∀ e ∈ c6Store, ∀ rest, e.1 = "storage" :: "session" :: rest → rest.length = 2) ∧
    ((collectSessionFiles c6Store "s1" = .error .notFound) ↔
      ¬ ∃ pid c, (["storage", "session", pid, "s1" ++ ".json"], c) ∈ c6Store) ∧
    findSessionFile c6Store "s1" = some (["storage", "session", "p1", "s1.json"], "p1") ∧
    (∃ info, collectSessionFiles c6Store "s1" = .ok info ∧
      info.files.filter (fun f =>
        match f.2 with
        | FileKind.message => true
        | FileKind.part => true
        | _ => false) = []) :=
  have hshape : ∀ e ∈ c6Store, ∀ rest,
      e.1 = "storage" :: "session" :: rest → rest.length = 2 := by
    intro e he rest h
    rw [c6Store, List.mem_singleton] at he
    subst he
    have h2 : rest = ["p1", "s1.json"] := by
      have := h.symm
      simpa using this
    rw [h2]
    rfl
  ⟨hshape, (c6_collect_contract c6Store "s1" hshape).1, rfl,
    (c6_collect_contract c6Store "s1" hshape).2 ["storage", "session", "p1", "s1.json"]
      "p1" (.obj (.cons "id" (.str "s1") (.cons "title" (.str "T") .nil))) rfl rfl rfl⟩

/-! ## Ingest never overwrites a project document (claim C9) -/

theorem msg_path_ne_proj (a b name : String) :
    (["storage", "message", a, b] : FsPath) ≠ ["storage", "project", name] := by
  intro h
  have := congrArg List.length h
  simp at this

theorem part_path_ne_proj (a b name : String) :
    (["storage", "part", a, b] : FsPath) ≠ ["storage", "project", name] := by
  intro h
  have := congrArg List.length h
  simp at this

theorem sess_path_ne_proj (a b name : String) :
    (["storage", "session", a, b] : FsPath) ≠ ["storage", "project", name] := by
  intro h
  have := congrArg List.length h
  simp at this

theorem diff_path_ne_proj (a name : String) :
    (["storage", "session_diff", a] : FsPath) ≠ ["storage", "project", name] := by
  intro h
  simp only [List.cons.injEq] at h
  exact absurd h.2.1 (by decide)

theorem messageWrites_shape : ∀ {es : List Json} {l : List (FsPath × Json)},
    messageWrites es = some l → ∀ w ∈ l, ∃ a b, w.1 = ["storage", "message", a, b]
  | [], l, h, w, hw => by
    simp only [messageWrites, Option.some.injEq] at h
    subst h
    exact absurd hw (by simp)
  | e :: rest, l, h, w, hw => by
    rw [messageWrites] at h
    cases hd : getField e "data" with
    | none =>
      rw [hd] at h
      exact absurd h (by simp)
    | some d =>
      rw [hd] at h
      dsimp only at h
      cases hid : getStrField d "id" with
      | none =>
        rw [hid] at h
        exact absurd h (by simp)
      | some i =>
        rw [hid] at h
        cases hsid : getStrField d "sessionID" with
        | none =>
          rw [hsid] at h
          exact absurd h (by simp)
        | some s =>
          rw [hsid] at h
          dsimp only at h
          cases hrec : messageWrites rest with
          | none =>
            rw [hrec] at h
            exact absurd h (by simp)
          | some l2 =>
            rw [hrec] at h
            simp only [Option.some.injEq] at h
            subst h
            rcases List.mem_cons.mp hw with hw | hw
            · subst hw
              exact ⟨s, i ++ ".json", rfl⟩
            · exact messageWrites_shape hrec w hw

theorem partWrites_shape : ∀ {es : List Json} {l : List (FsPath × Json)},
    partWrites es = some l → ∀ w ∈ l, ∃ a b, w.1 = ["storage", "part", a, b]
  | [], l, h, w, hw => by
    simp only [partWrites, Option.some.injEq] at h
    subst h
    exact absurd hw (by simp)
  | e :: rest, l, h, w, hw => by
    rw [partWrites] at h
    cases hd : getField e "data" with
    | none =>
      rw [hd] at h
      exact absurd h (by simp)
    | some d =>
      rw [hd] at h
      dsimp only at h
      cases hid : getStrField d "id" with
      | none =>
        rw [hid] at h
        exact absurd h (by simp)
      | some i =>
        rw [hid] at h
        cases hmid : getStrField d "messageID" with
        | none =>
          rw [hmid] at h
          exact absurd h (by simp)
        | some m =>
          rw [hmid] at h
          dsimp only at h
          cases hrec : partWrites rest with
          | none =>
            rw [hrec] at h
            exact absurd h (by simp)
          | some l2 =>
            rw [hrec] at h
            simp only [Option.some.injEq] at h
            subst h
            rcases List.mem_cons.mp hw with hw | hw
            · subst hw
              exact ⟨m, i ++ ".json", rfl⟩
            · exact partWrites_shape hrec w hw

theorem applyWrites_proj_lookup : ∀ (writes : List (FsPath × Json)) (st : Store),
    (∀ w ∈ writes, ∀ name, w.1 ≠ ["storage", "project", name]) →
    ∀ name, storeLookup (applyWrites st writes) ["storage", "project", name] =
      storeLookup st ["storage", "project", name]
  | [], st, _, name => rfl
  | (p, j) :: rest, st, h, name => by
    rw [applyWrites]
    rw [applyWrites_proj_lookup rest _ (fun w hw => h w (List.mem_cons_of_mem _ hw)) name]
    exact storeSet_lookup_other st _
      (fun hh => h (p, j) (List.mem_cons_self _ _) name hh.symm)

theorem writeProject_lookup (st : Store) (pid : String) (pd : Json) (name : String) :
    storeLookup (writeProject st pid pd).1 ["storage", "project", name] =
        storeLookup st ["storage", "project", name] ∨
      (storeLookup st ["storage", "project", name] = none ∧
        ∃ j, storeLookup (writeProject st pid pd).1 ["storage", "project", name] =
          some (.jsonFile j)) := by
  unfold writeProject
  by_cases hex : pathExistsFS st ["storage", "project", pid ++ ".json"] = true
  · rw [if_pos hex]
    exact Or.inl rfl
  · rw [if_neg hex]
    dsimp only
    by_cases hname : (["storage", "project", name] : FsPath) =
        ["storage", "project", pid ++ ".json"]
    · have hnone : storeLookup st ["storage", "project", pid ++ ".json"] = none := by
        cases hlk : storeLookup st ["storage", "project", pid ++ ".json"] with
        | none => rfl
        | some c => exact absurd (pathExistsFS_of_lookup hlk) hex
      refine Or.inr ⟨by rw [hname]; exact hnone, pd, ?_⟩
      rw [hname, storeSet_lookup_same]
    · rw [storeSet_lookup_other st _ hname]
      exact Or.inl rfl

/-- Claim C9: a successful ingest never overwrites a project document —
every project document present before ingest has identical content
after — and the project document is created (with JSON content) only
when no document existed at its path. -/
theorem c9_project_preserved (v : String → Bool) (st : Store) (share : Json)
    (rm : Option String) (r : IngestResult) (st5 : Store)
    (hrun : ingestSession v st share rm = .ok (r, st5)) :
    ∀ name, storeLookup st5 ["storage", "project", name] =
        storeLookup st ["storage", "project", name] ∨
      (storeLookup st ["storage", "project", name] = none ∧
        ∃ j, storeLookup st5 ["storage", "project", name] = some (.jsonFile j)) := by
  intro name
  unfold ingestSession at hrun
  dsimp only at hrun
  split at hrun <;> try exact Except.noConfusion hrun
  split at hrun <;> try exact Except.noConfusion hrun
  split at hrun <;> try exact Except.noConfusion hrun
  split at hrun <;> try exact Except.noConfusion hrun
  split at hrun <;> try exact Except.noConfusion hrun
  split at hrun <;> try exact Except.noConfusion hrun
  split at hrun <;> try exact Except.noConfusion hrun
  rw [Except.ok.injEq, Prod.mk.injEq] at hrun
  obtain ⟨hr, hst5⟩ := hrun
  subst hst5
  rw [storeSet_lookup_other _ _ (fun hh => diff_path_ne_proj _ name hh.symm)]
  rw [applyWrites_proj_lookup _ _ (fun w hw name2 hh => by
    rcases partWrites_shape (by assumption) w hw with ⟨a, b, hab⟩
    exact part_path_ne_proj a b name2 (hab ▸ hh)) name]
  rw [applyWrites_proj_lookup _ _ (fun w hw name2 hh => by
    rcases messageWrites_shape (by assumption) w hw with ⟨a, b, hab⟩
    exact msg_path_ne_proj a b name2 (hab ▸ hh)) name]
  rw [storeSet_lookup_other _ _ (fun hh => sess_path_ne_proj _ _ name hh.symm)]
  exact writeProject_lookup st _ _ name

/-- Witness for C9: ingesting a share into a store that already has the
project document leaves that document untouched. -/
theorem c9_witness :
    ingestSession (fun _ => true) c9Store c9Share none = .ok (c9Result, c9StoreAfter) ∧
    (∀ name, storeLookup c9StoreAfter ["storage", "project", name] =
        storeLookup c9Store ["storage", "project", name] ∨
      (storeLookup c9Store ["storage", "project", name] = none ∧
        ∃ j, storeLookup c9StoreAfter ["storage", "project", name] =
          some (.jsonFile j))) :=
  ⟨rfl, c9_project_preserved (fun _ => true) c9Store c9Share none c9Result c9StoreAfter rfl⟩

/-! ## Structured source store characterization (claims C2, C7) -/

theorem pathExistsFS_true_of {st : Store} {p : FsPath} (e : FsPath × FileContent)
    (he : e ∈ st) (h : (stripPrefixSegs p e.1).isSome = true) : pathExistsFS st p = true := by
  unfold pathExistsFS
  rw [List.any_eq_true]
  exact ⟨e, he, h⟩

theorem pathExistsFS_false_of {st : Store} {p : FsPath}
    (h : ∀ e ∈ st, stripPrefixSegs p e.1 = none) : pathExistsFS st p = false := by
  unfold pathExistsFS
  rw [List.any_eq_false]
  intro e he
  simp [h e he]

theorem filterMap_nil_of {α β : Type} {f : α → Option β} :
    ∀ {l : List α}, (∀ a ∈ l, f a = none) → l.filterMap f = []
  | [], _ => rfl
  | a :: l, h => by
    rw [List.filterMap_cons, h a (List.mem_cons_self _ _),
      filterMap_nil_of (fun x hx => h x (List.mem_cons_of_mem _ hx))]

theorem filterMap_map_of {α β : Type} {f : α → Option β} {g : α → β} :
    ∀ {l : List α}, (∀ a ∈ l, f a = some (g a)) → l.filterMap f = l.map g
  | [], _ => rfl
  | a :: l, h => by
    rw [List.filterMap_cons, h a (List.mem_cons_self _ _), List.map_cons]
    exact congrArg (g a :: ·)
      (filterMap_map_of (fun x hx => h x (List.mem_cons_of_mem _ hx)))

theorem dedupAcc_of_nodup : ∀ (seen l : List String), l.Nodup → (∀ x ∈ l, x ∉ seen) →
    dedupAcc seen l = l
  | _, [], _, _ => rfl
  | seen, x :: xs, hnd, hs => by
    rw [dedupAcc, if_neg (hs x (List.mem_cons_self _ _))]
    refine congrArg (x :: ·) (dedupAcc_of_nodup (x :: seen) xs (List.Nodup.of_cons hnd) ?_)
    intro y hy hmem
    rcases List.mem_cons.mp hmem with h | h
    · exact (List.nodup_cons.mp hnd).1 (h ▸ hy)
    · exact hs y (List.mem_cons_of_mem _ hy) h

theorem append_json_inj {a b : String} (h : a ++ ".json" = b ++ ".json") : a = b := by
  have h2 : a.data ++ ".json".data = b.data ++ ".json".data := by
    rw [← String.data_append, ← String.data_append, h]
  exact String.ext (List.append_cancel_right h2)

theorem strEndsWith_append_json (s : String) : strEndsWith (s ++ ".json") ".json" = true := by
  unfold strEndsWith
  rw [List.isSuffixOf_iff_suffix, String.data_append]
  exact List.suffix_append _ _

theorem mkStore_eq (d : SessionDesc) : mkStore d = sessEntryD d :: mkStoreTail d := rfl

theorem mkStore_split (d : SessionDesc) :
    mkStore d = storagePartD d ++ d.snaps.map (snapEntry d) := rfl

theorem mem_mkStoreTail_cases {d : SessionDesc} {e : FsPath × FileContent}
    (he : e ∈ mkStoreTail d) :
    (∃ m ∈ d.msgs, e = messageEntry d m) ∨
    (∃ m ∈ d.msgs, ∃ p ∈ m.parts, e = (partPathD m p, .jsonFile p.content)) ∨
    (∃ j, d.diff = some j ∧ e = (diffPathD d, .jsonFile j)) ∨
    e = projEntryD d ∨
    (∃ s ∈ d.snaps, e = snapEntry d s) := by
  unfold mkStoreTail at he
  simp only [List.mem_append] at he
  rcases he with ((((he | he) | he) | he) | he)
  · rcases List.mem_map.mp he with ⟨m, hm, hme⟩
    exact Or.inl ⟨m, hm, hme.symm⟩
  · rcases List.mem_flatten.mp he with ⟨l, hl, hel⟩
    rcases List.mem_map.mp hl with ⟨m, hm, hml⟩
    rw [← hml, partEntries] at hel
    rcases List.mem_map.mp hel with ⟨p, hp, hpe⟩
    refine Or.inr (Or.inl ⟨m, hm, p, hp, ?_⟩)
    rw [← hpe]
    rfl
  · refine Or.inr (Or.inr (Or.inl ?_))
    unfold diffEntries at he
    cases hd : d.diff with
    | some j =>
      rw [hd] at he
      simp only [List.mem_singleton] at he
      exact ⟨j, rfl, he⟩
    | none =>
      rw [hd] at he
      simp at he
  · simp only [List.mem_singleton] at he
    exact Or.inr (Or.inr (Or.inr (Or.inl he)))
  · rcases List.mem_map.mp he with ⟨s, hs, hse⟩
    exact Or.inr (Or.inr (Or.inr (Or.inr ⟨s, hs, hse.symm⟩)))

theorem mem_storagePartD_cases {d : SessionDesc} {e : FsPath × FileContent}
    (he : e ∈ storagePartD d) :
    e = sessEntryD d ∨
    (∃ m ∈ d.msgs, e = messageEntry d m) ∨
    (∃ m ∈ d.msgs, ∃ p ∈ m.parts, e = (partPathD m p, .jsonFile p.content)) ∨
    (∃ j, d.diff = some j ∧ e = (diffPathD d, .jsonFile j)) ∨
    e = projEntryD d := by
  unfold storagePartD at he
  rcases List.mem_cons.mp he with he | he
  · exact Or.inl he
  simp only [List.mem_append] at he
  rcases he with (((he | he) | he) | he)
  · rcases List.mem_map.mp he with ⟨m, hm, hme⟩
    exact Or.inr (Or.inl ⟨m, hm, hme.symm⟩)
  · rcases List.mem_flatten.mp he with ⟨l, hl, hel⟩
    rcases List.mem_map.mp hl with ⟨m, hm, hml⟩
    rw [← hml, partEntries] at hel
    rcases List.mem_map.mp hel with ⟨p, hp, hpe⟩
    refine Or.inr (Or.inr (Or.inl ⟨m, hm, p, hp, ?_⟩))
    rw [← hpe]
    rfl
  · refine Or.inr (Or.inr (Or.inr (Or.inl ?_)))
    unfold diffEntries at he
    cases hd : d.diff with
    | some j =>
      rw [hd] at he
      simp only [List.mem_singleton] at he
      exact ⟨j, rfl, he⟩
    | none =>
      rw [hd] at he
      simp at he
  · simp only [List.mem_singleton] at he
    exact Or.inr (Or.inr (Or.inr (Or.inr he)))

theorem messageEntry_mem_mkStore {d : SessionDesc} {m : MessageDesc} (hm : m ∈ d.msgs) :
    messageEntry d m ∈ mkStore d := by
  rw [mkStore_eq]
  refine List.mem_cons_of_mem _ ?_
  unfold mkStoreTail
  simp only [List.mem_append]
  exact Or.inl (Or.inl (Or.inl (Or.inl (List.mem_map.mpr ⟨m, hm, rfl⟩))))

theorem partEntry_mem_mkStore {d : SessionDesc} {m : MessageDesc} {p : PartDesc}
    (hm : m ∈ d.msgs) (hp : p ∈ m.parts) :
    ((partPathD m p, FileContent.jsonFile p.content) : FsPath × FileContent) ∈ mkStore d := by
  rw [mkStore_eq]
  refine List.mem_cons_of_mem _ ?_
  unfold mkStoreTail
  simp only [List.mem_append]
  refine Or.inl (Or.inl (Or.inl (Or.inr ?_)))
  refine List.mem_flatten.mpr ⟨partEntries m, List.mem_map.mpr ⟨m, hm, rfl⟩, ?_⟩
  unfold partEntries
  exact List.mem_map.mpr ⟨p, hp, rfl⟩

theorem diffEntry_mem_mkStore {d : SessionDesc} {j : Json} (hd : d.diff = some j) :
    ((diffPathD d, FileContent.jsonFile j) : FsPath × FileContent) ∈ mkStore d := by
  rw [mkStore_eq]
  refine List.mem_cons_of_mem _ ?_
  unfold mkStoreTail
  simp only [List.mem_append]
  refine Or.inl (Or.inl (Or.inr ?_))
  unfold diffEntries
  rw [hd]
  exact List.mem_singleton.mpr rfl

theorem projEntry_mem_mkStore (d : SessionDesc) : projEntryD d ∈ mkStore d := by
  rw [mkStore_eq]
  refine List.mem_cons_of_mem _ ?_
  unfold mkStoreTail
  simp only [List.mem_append]
  exact Or.inl (Or.inr (List.mem_singleton.mpr rfl))

theorem snapEntry_mem_mkStore {d : SessionDesc} {s : SnapDesc} (hs : s ∈ d.snaps) :
    snapEntry d s ∈ mkStore d := by
  rw [mkStore_eq]
  refine List.mem_cons_of_mem _ ?_
  unfold mkStoreTail
  simp only [List.mem_append]
  exact Or.inr (List.mem_map.mpr ⟨s, hs, rfl⟩)

theorem storagePartD_storage_shape {d : SessionDesc} {e : FsPath × FileContent}
    (he : e ∈ storagePartD d) : ∃ rest, e.1 = "storage" :: rest ∧ rest ≠ [] := by
  rcases mem_storagePartD_cases he with rfl | ⟨m, hm, rfl⟩ | ⟨m, hm, p, hp, rfl⟩ |
    ⟨j, hd, rfl⟩ | rfl
  · exact ⟨_, rfl, by simp [sessEntryD, sessPathD]⟩
  · exact ⟨_, rfl, by simp [messageEntry]⟩
  · exact ⟨_, rfl, by simp [partPathD]⟩
  · exact ⟨_, rfl, by simp [diffPathD]⟩
  · exact ⟨_, rfl, by simp [projEntryD, projPathD]⟩

theorem mkStore_shape (d : SessionDesc) :
    ∀ e ∈ mkStore d, (∃ rest, e.1 = "storage" :: rest ∧ rest ≠ []) ∨
      (∃ rest, e.1 = "snapshot" :: rest ∧ rest ≠ []) := by
  intro e he
  rw [mkStore_split] at he
  rcases List.mem_append.mp he with he | he
  · exact Or.inl (storagePartD_storage_shape he)
  · rcases List.mem_map.mp he with ⟨s, hs, rfl⟩
    exact Or.inr ⟨_, rfl, by simp [snapEntry]⟩

theorem msgs_id_unique {ms : List MessageDesc} (hnd : (ms.map MessageDesc.id).Nodup)
    {m m2 : MessageDesc} (hm : m ∈ ms) (hm2 : m2 ∈ ms) (h : m2.id = m.id) : m2 = m :=
  List.inj_on_of_nodup_map hnd hm2 hm h

theorem names_json_nodup {l : List String} (h : l.Nodup) :
    (l.map (fun s => s ++ ".json")).Nodup :=
  List.Nodup.map (fun a b hab => append_json_inj hab) h

theorem nodup_map_cons {α β : Type} {f : α → β} {a : α} {l : List α}
    (h : ((a :: l).map f).Nodup) : f a ∉ l.map f ∧ (l.map f).Nodup := by
  rw [List.map_cons, List.nodup_cons] at h
  exact h

theorem mkStore_session_index_exists (d : SessionDesc) :
    pathExistsFS (mkStore d) ["storage", "session"] = true := by
  refine pathExistsFS_true_of (sessEntryD d) ?_
    (by simp [sessEntryD, sessPathD, stripPrefixSegs])
  rw [mkStore_eq]
  exact List.mem_cons_self _ _

theorem mkStore_sess_lookup (d : SessionDesc) :
    storeLookup (mkStore d) (sessPathD d) = some (.jsonFile (sessionDescJson d)) := by
  rw [mkStore_eq, storeLookup,
    if_pos (show (sessEntryD d).1 = sessPathD d from rfl)]
  rfl

theorem mkStore_sessPath_exists (d : SessionDesc) :
    pathExistsFS (mkStore d) (sessPathD d) = true :=
  pathExistsFS_of_lookup (mkStore_sess_lookup d)

theorem childNames_session_dir (d : SessionDesc) :
    childNames (mkStore d) ["storage", "session"] = [d.projectId] := by
  unfold childNames
  have hfm : ((mkStore d).filterMap fun e =>
      (stripPrefixSegs ["storage", "session"] e.1).bind List.head?) = [d.projectId] := by
    rw [mkStore_eq, List.filterMap_cons]
    have hhead : ((stripPrefixSegs ["storage", "session"] (sessEntryD d).1).bind
        List.head?) = some d.projectId := by
      simp [sessEntryD, sessPathD, stripPrefixSegs]
    have htail : (mkStoreTail d).filterMap (fun e =>
        (stripPrefixSegs ["storage", "session"] e.1).bind List.head?) = [] := by
      refine filterMap_nil_of ?_
      intro e he
      rcases mem_mkStoreTail_cases he with ⟨m, hm, rfl⟩ | ⟨m, hm, p, hp, rfl⟩ |
        ⟨j, hd, rfl⟩ | rfl | ⟨s, hs, rfl⟩
      · simp [messageEntry, stripPrefixSegs]
      · simp [partPathD, stripPrefixSegs]
      · simp [diffPathD, stripPrefixSegs]
      · simp [projEntryD, projPathD, stripPrefixSegs]
      · simp [snapEntry, stripPrefixSegs]
    simp only [hhead, htail]
  rw [hfm]
  rfl

theorem childNames_session_pid_dir (d : SessionDesc) :
    childNames (mkStore d) ["storage", "session", d.projectId] =
      [d.sessionId ++ ".json"] := by
  unfold childNames
  have hfm : ((mkStore d).filterMap fun e =>
      (stripPrefixSegs ["storage", "session", d.projectId] e.1).bind List.head?) =
      [d.sessionId ++ ".json"] := by
    rw [mkStore_eq, List.filterMap_cons]
    have hhead : ((stripPrefixSegs ["storage", "session", d.projectId]
        (sessEntryD d).1).bind List.head?) = some (d.sessionId ++ ".json") := by
      simp [sessEntryD, sessPathD, stripPrefixSegs]
    have htail : (mkStoreTail d).filterMap (fun e =>
        (stripPrefixSegs ["storage", "session", d.projectId] e.1).bind List.head?) = [] := by
      refine filterMap_nil_of ?_
      intro e he
      rcases mem_mkStoreTail_cases he with ⟨m, hm, rfl⟩ | ⟨m, hm, p, hp, rfl⟩ |
        ⟨j, hd, rfl⟩ | rfl | ⟨s, hs, rfl⟩
      · simp [messageEntry, stripPrefixSegs]
      · simp [partPathD, stripPrefixSegs]
      · simp [diffPathD, stripPrefixSegs]
      · simp [projEntryD, projPathD, stripPrefixSegs]
      · simp [snapEntry, stripPrefixSegs]
    simp only [hhead, htail]
  rw [hfm]
  rfl

theorem findSessionFile_mkStore (d : SessionDesc) :
    findSessionFile (mkStore d) d.sessionId = some (sessPathD d, d.projectId) := by
  unfold findSessionFile
  rw [mkStore_session_index_exists, if_pos rfl, childNames_session_dir]
  have hex : pathExistsFS (mkStore d)
      ["storage", "session", d.projectId, d.sessionId ++ ".json"] = true :=
    mkStore_sessPath_exists d
  simp [List.findSome?_cons, hex, sessPathD]

theorem mkStore_msg_dir_not_exists (d : SessionDesc) (h : d.msgs = []) :
    pathExistsFS (mkStore d) ["storage", "message", d.sessionId] = false := by
  refine pathExistsFS_false_of ?_
  intro e he
  rw [mkStore_eq] at he
  rcases List.mem_cons.mp he with rfl | he
  · simp [sessEntryD, sessPathD, stripPrefixSegs]
  rcases mem_mkStoreTail_cases he with ⟨m, hm, rfl⟩ | ⟨m, hm, p, hp, rfl⟩ |
    ⟨j, hd, rfl⟩ | rfl | ⟨s, hs, rfl⟩
  · rw [h] at hm; simp at hm
  · rw [h] at hm; simp at hm
  · simp [diffPathD, stripPrefixSegs]
  · simp [projEntryD, projPathD, stripPrefixSegs]
  · simp [snapEntry, stripPrefixSegs]

theorem mkStore_msg_dir_exists (d : SessionDesc) {m : MessageDesc} (hm : m ∈ d.msgs) :
    pathExistsFS (mkStore d) ["storage", "message", d.sessionId] = true := by
  refine pathExistsFS_true_of (messageEntry d m) (messageEntry_mem_mkStore hm) ?_
  simp [messageEntry, stripPrefixSegs]

theorem childNames_msg_dir (d : SessionDesc) (hnd : (d.msgs.map MessageDesc.id).Nodup) :
    childNames (mkStore d) ["storage", "message", d.sessionId] =
      d.msgs.map (fun m => m.id ++ ".json") := by
  unfold childNames
  have hfm : ((mkStore d).filterMap fun e =>
      (stripPrefixSegs ["storage", "message", d.sessionId] e.1).bind List.head?) =
      d.msgs.map (fun m => m.id ++ ".json") := by
    rw [mkStore_eq, List.filterMap_cons]
    have hhead : ((stripPrefixSegs ["storage", "message", d.sessionId]
        (sessEntryD d).1).bind List.head?) = none := by
      simp [sessEntryD, sessPathD, stripPrefixSegs]
    have htail : (mkStoreTail d).filterMap (fun e =>
        (stripPrefixSegs ["storage", "message", d.sessionId] e.1).bind List.head?) =
        d.msgs.map (fun m => m.id ++ ".json") := by
      unfold mkStoreTail
      rw [List.filterMap_append, List.filterMap_append, List.filterMap_append,
        List.filterMap_append]
      have h1 : (d.msgs.map (messageEntry d)).filterMap (fun e =>
          (stripPrefixSegs ["storage", "message", d.sessionId] e.1).bind List.head?) =
          d.msgs.map (fun m => m.id ++ ".json") := by
        rw [List.filterMap_map]
        exact filterMap_map_of
          (fun m hm => by simp [Function.comp, messageEntry, stripPrefixSegs])
      have h2 : ((d.msgs.map partEntries).flatten).filterMap (fun e =>
          (stripPrefixSegs ["storage", "message", d.sessionId] e.1).bind List.head?) = [] := by
        refine filterMap_nil_of ?_
        intro e he
        rcases List.mem_flatten.mp he with ⟨l, hl, hel⟩
        rcases List.mem_map.mp hl with ⟨m, hm, hml⟩
        rw [← hml, partEntries] at hel
        rcases List.mem_map.mp hel with ⟨p, hp, rfl⟩
        simp [stripPrefixSegs]
      have h3 : (diffEntries d).filterMap (fun e =>
          (stripPrefixSegs ["storage", "message", d.sessionId] e.1).bind List.head?) = [] := by
        refine filterMap_nil_of ?_
        intro e he
        unfold diffEntries at he
        cases hd : d.diff with
        | some j =>
          rw [hd] at he
          simp only [List.mem_singleton] at he
          subst he
          simp [diffPathD, stripPrefixSegs]
        | none =>
          rw [hd] at he
          simp at he
      have h4 : ([projEntryD d] : Store).filterMap (fun e =>
          (stripPrefixSegs ["storage", "message", d.sessionId] e.1).bind List.head?) = [] := by
        refine filterMap_nil_of ?_
        intro e he
        simp only [List.mem_singleton] at he
        subst he
        simp [projEntryD, projPathD, stripPrefixSegs]
      have h5 : (d.snaps.map (snapEntry d)).filterMap (fun e =>
          (stripPrefixSegs ["storage", "message", d.sessionId] e.1).bind List.head?) = [] := by
        refine filterMap_nil_of ?_
        intro e he
        rcases List.mem_map.mp he with ⟨s, hs, rfl⟩
        simp [snapEntry, stripPrefixSegs]
      rw [h1, h2, h3, h4, h5]
      simp
    simp only [hhead, htail]
  rw [hfm]
  have hnames : (d.msgs.map (fun m => m.id ++ ".json")).Nodup := by
    have h2 : d.msgs.map (fun m => m.id ++ ".json") =
        (d.msgs.map MessageDesc.id).map (fun s => s ++ ".json") := by
      rw [List.map_map]
      rfl
    rw [h2]
    exact names_json_nodup hnd
  exact dedupAcc_of_nodup [] _ hnames (by simp)

theorem storeLookup_msgChunk (d : SessionDesc) :
    ∀ (ms : List MessageDesc) (m : MessageDesc), (ms.map MessageDesc.id).Nodup → m ∈ ms →
      storeLookup (ms.map (messageEntry d)) (msgPathD d m) =
        some (.jsonFile (messageDescJson d m))
  | [], m, _, hm => absurd hm (by simp)
  | m0 :: rest, m, hnd, hm => by
    rw [List.map_cons, storeLookup]
    rcases List.mem_cons.mp hm with h | h
    · subst h
      rw [if_pos (show (messageEntry d m).1 = msgPathD d m from rfl)]
      rfl
    · have hid : m0.id ∉ rest.map MessageDesc.id :=
        (nodup_map_cons hnd).1
      have hne : ¬ (messageEntry d m0).1 = msgPathD d m := by
        intro hh
        have hids : m0.id ++ ".json" = m.id ++ ".json" := by
          simpa [messageEntry, msgPathD] using hh
        refine hid ?_
        rw [append_json_inj hids]
        exact List.mem_map.mpr ⟨m, h, rfl⟩
      rw [if_neg hne]
      exact storeLookup_msgChunk d rest m ((nodup_map_cons hnd).2) h

theorem mkStore_msg_lookup (d : SessionDesc) (hnd : (d.msgs.map MessageDesc.id).Nodup)
    {m : MessageDesc} (hm : m ∈ d.msgs) :
    storeLookup (mkStore d) (msgPathD d m) = some (.jsonFile (messageDescJson d m)) := by
  rw [mkStore_eq, storeLookup, if_neg (by simp [sessEntryD, sessPathD, msgPathD])]
  unfold mkStoreTail
  exact storeLookup_append_of_some _ (storeLookup_append_of_some _
    (storeLookup_append_of_some _ (storeLookup_append_of_some _
      (storeLookup_msgChunk d d.msgs m hnd hm))))

theorem readMessageFiles_mkStore (d : SessionDesc) (hnd : (d.msgs.map MessageDesc.id).Nodup) :
    ∀ (ms : List MessageDesc), (∀ m ∈ ms, m ∈ d.msgs) →
      readMessageFiles (mkStore d) d.sessionId (ms.map (fun m => m.id ++ ".json")) =
        .ok (ms.map (fun m => (msgPathD d m, m.id)))
  | [], _ => rfl
  | m :: rest, h => by
    rw [List.map_cons, readMessageFiles, if_pos (strEndsWith_append_json m.id)]
    rw [show (["storage", "message", d.sessionId, m.id ++ ".json"] : FsPath) =
      msgPathD d m from rfl]
    rw [mkStore_msg_lookup d hnd (h m (List.mem_cons_self _ _))]
    dsimp only
    rw [show getStrField (messageDescJson d m) "id" = some m.id from rfl]
    dsimp only
    rw [readMessageFiles_mkStore d hnd rest (fun x hx => h x (List.mem_cons_of_mem _ hx))]
    rfl

theorem partChunk_names (m : MessageDesc) :
    ∀ (ms : List MessageDesc), (ms.map MessageDesc.id).Nodup → m ∈ ms →
      ((ms.map partEntries).flatten.filterMap fun e =>
        (stripPrefixSegs ["storage", "part", m.id] e.1).bind List.head?) =
        m.parts.map (fun p => p.id ++ ".json")
  | [], _, hm => absurd hm (by simp)
  | m0 :: rest, hnd, hm => by
    rw [List.map_cons, List.flatten_cons, List.filterMap_append]
    rcases List.mem_cons.mp hm with h | h
    · subst h
      have h1 : (partEntries m).filterMap (fun e =>
          (stripPrefixSegs ["storage", "part", m.id] e.1).bind List.head?) =
          m.parts.map (fun p => p.id ++ ".json") := by
        unfold partEntries
        rw [List.filterMap_map]
        exact filterMap_map_of (fun p hp => by simp [Function.comp, stripPrefixSegs])
      have h2 : ((rest.map partEntries).flatten.filterMap fun e =>
          (stripPrefixSegs ["storage", "part", m.id] e.1).bind List.head?) = [] := by
        refine filterMap_nil_of ?_
        intro e he
        rcases List.mem_flatten.mp he with ⟨l, hl, hel⟩
        rcases List.mem_map.mp hl with ⟨m2, hm2, hml⟩
        rw [← hml, partEntries] at hel
        rcases List.mem_map.mp hel with ⟨p, hp, rfl⟩
        have hne : m.id ≠ m2.id := by
          intro hh
          refine (nodup_map_cons hnd).1 ?_
          rw [hh]
          exact List.mem_map.mpr ⟨m2, hm2, rfl⟩
        simp [stripPrefixSegs, hne]
      rw [h1, h2, List.append_nil]
    · have hid : m0.id ∉ rest.map MessageDesc.id :=
        (nodup_map_cons hnd).1
      have h1 : (partEntries m0).filterMap (fun e =>
          (stripPrefixSegs ["storage", "part", m.id] e.1).bind List.head?) = [] := by
        refine filterMap_nil_of ?_
        intro e he
        unfold partEntries at he
        rcases List.mem_map.mp he with ⟨p, hp, rfl⟩
        have hne : m.id ≠ m0.id := by
          intro hh
          refine hid ?_
          rw [← hh]
          exact List.mem_map.mpr ⟨m, h, rfl⟩
        simp [stripPrefixSegs, hne]
      rw [h1, List.nil_append]
      exact partChunk_names m rest ((nodup_map_cons hnd).2) h

theorem childNames_part_dir (d : SessionDesc) (hnd : (d.msgs.map MessageDesc.id).Nodup)
    {m : MessageDesc} (hm : m ∈ d.msgs) (hpnd : (m.parts.map PartDesc.id).Nodup) :
    childNames (mkStore d) ["storage", "part", m.id] =
      m.parts.map (fun p => p.id ++ ".json") := by
  unfold childNames
  have hfm : ((mkStore d).filterMap fun e =>
      (stripPrefixSegs ["storage", "part", m.id] e.1).bind List.head?) =
      m.parts.map (fun p => p.id ++ ".json") := by
    rw [mkStore_eq, List.filterMap_cons]
    have hhead : ((stripPrefixSegs ["storage", "part", m.id] (sessEntryD d).1).bind
        List.head?) = none := by
      simp [sessEntryD, sessPathD, stripPrefixSegs]
    have htail : (mkStoreTail d).filterMap (fun e =>
        (stripPrefixSegs ["storage", "part", m.id] e.1).bind List.head?) =
        m.parts.map (fun p => p.id ++ ".json") := by
      unfold mkStoreTail
      rw [List.filterMap_append, List.filterMap_append, List.filterMap_append,
        List.filterMap_append]
      have h1 : (d.msgs.map (messageEntry d)).filterMap (fun e =>
          (stripPrefixSegs ["storage", "part", m.id] e.1).bind List.head?) = [] := by
        refine filterMap_nil_of ?_
        intro e he
        rcases List.mem_map.mp he with ⟨m2, hm2, rfl⟩
        simp [messageEntry, stripPrefixSegs]
      have h2 := partChunk_names m d.msgs hnd hm
      have h3 : (diffEntries d).filterMap (fun e =>
          (stripPrefixSegs ["storage", "part", m.id] e.1).bind List.head?) = [] := by
        refine filterMap_nil_of ?_
        intro e he
        unfold diffEntries at he
        cases hd : d.diff with
        | some j =>
          rw [hd] at he
          simp only [List.mem_singleton] at he
          subst he
          simp [diffPathD, stripPrefixSegs]
        | none =>
          rw [hd] at he
          simp at he
      have h4 : ([projEntryD d] : Store).filterMap (fun e =>
          (stripPrefixSegs ["storage", "part", m.id] e.1).bind List.head?) = [] := by
        refine filterMap_nil_of ?_
        intro e he
        simp only [List.mem_singleton] at he
        subst he
        simp [projEntryD, projPathD, stripPrefixSegs]
      have h5 : (d.snaps.map (snapEntry d)).filterMap (fun e =>
          (stripPrefixSegs ["storage", "part", m.id] e.1).bind List.head?) = [] := by
        refine filterMap_nil_of ?_
        intro e he
        rcases List.mem_map.mp he with ⟨s, hs, rfl⟩
        simp [snapEntry, stripPrefixSegs]
      rw [h1, h2, h3, h4, h5]
      simp
    simp only [hhead, htail]
  rw [hfm]
  have hnames : (m.parts.map (fun p => p.id ++ ".json")).Nodup := by
    have h2 : m.parts.map (fun p => p.id ++ ".json") =
        (m.parts.map PartDesc.id).map (fun s => s ++ ".json") := by
      rw [List.map_map]
      rfl
    rw [h2]
    exact names_json_nodup hpnd
  exact dedupAcc_of_nodup [] _ hnames (by simp)

theorem mkStore_part_dir_exists (d : SessionDesc) {m : MessageDesc} (hm : m ∈ d.msgs)
    {p : PartDesc} (hp : p ∈ m.parts) :
    pathExistsFS (mkStore d) ["storage", "part", m.id] = true := by
  refine pathExistsFS_true_of (partPathD m p, .jsonFile p.content)
    (partEntry_mem_mkStore hm hp) ?_
  simp [partPathD, stripPrefixSegs]

theorem mkStore_part_dir_not_exists (d : SessionDesc)
    (hnd : (d.msgs.map MessageDesc.id).Nodup) {m : MessageDesc} (hm : m ∈ d.msgs)
    (hp : m.parts = []) :
    pathExistsFS (mkStore d) ["storage", "part", m.id] = false := by
  refine pathExistsFS_false_of ?_
  intro e he
  rw [mkStore_eq] at he
  rcases List.mem_cons.mp he with rfl | he
  · simp [sessEntryD, sessPathD, stripPrefixSegs]
  rcases mem_mkStoreTail_cases he with ⟨m2, hm2, rfl⟩ | ⟨m2, hm2, q, hq, rfl⟩ |
    ⟨j, hd, rfl⟩ | rfl | ⟨s, hs, rfl⟩
  · simp [messageEntry, stripPrefixSegs]
  · by_cases hmm : m2 = m
    · subst hmm
      rw [hp] at hq
      simp at hq
    · have hne : m.id ≠ m2.id := by
        intro hh
        exact hmm (msgs_id_unique hnd hm hm2 hh.symm)
      simp [partPathD, stripPrefixSegs, hne]
  · simp [diffPathD, stripPrefixSegs]
  · simp [projEntryD, projPathD, stripPrefixSegs]
  · simp [snapEntry, stripPrefixSegs]

theorem storeLookup_partEntriesGen (mid : String) (p : PartDesc) :
    ∀ (ps : List PartDesc), (ps.map PartDesc.id).Nodup → p ∈ ps →
      storeLookup (ps.map (fun q =>
        ((["storage", "part", mid, q.id ++ ".json"] : FsPath),
          FileContent.jsonFile q.content)))
        ["storage", "part", mid, p.id ++ ".json"] = some (.jsonFile p.content)
  | [], _, hp => absurd hp (by simp)
  | q0 :: rest, hnd, hp => by
    rw [List.map_cons, storeLookup]
    rcases List.mem_cons.mp hp with h | h
    · subst h
      rw [if_pos rfl]
    · have hid : q0.id ∉ rest.map PartDesc.id :=
        (nodup_map_cons hnd).1
      have hne : ¬ (["storage", "part", mid, q0.id ++ ".json"] : FsPath) =
          ["storage", "part", mid, p.id ++ ".json"] := by
        intro hh
        have hids : q0.id ++ ".json" = p.id ++ ".json" := by simpa using hh
        refine hid ?_
        rw [append_json_inj hids]
        exact List.mem_map.mpr ⟨p, h, rfl⟩
      rw [if_neg hne]
      exact storeLookup_partEntriesGen mid p rest
        ((nodup_map_cons hnd).2) h

theorem storeLookup_partFlatten (m : MessageDesc) (p : PartDesc)
    (hpnd : (m.parts.map PartDesc.id).Nodup) (hp : p ∈ m.parts) :
    ∀ (ms : List MessageDesc), (ms.map MessageDesc.id).Nodup → m ∈ ms →
      storeLookup ((ms.map partEntries).flatten) (partPathD m p) =
        some (.jsonFile p.content)
  | [], _, hm => absurd hm (by simp)
  | m0 :: rest, hnd, hm => by
    rw [List.map_cons, List.flatten_cons]
    rcases List.mem_cons.mp hm with h | h
    · subst h
      exact storeLookup_append_of_some _
        (storeLookup_partEntriesGen m.id p m.parts hpnd hp)
    · have hid0 : m0.id ∉ rest.map MessageDesc.id :=
        (nodup_map_cons hnd).1
      have hne2 : ∀ e ∈ partEntries m0, e.1 ≠ partPathD m p := by
        intro e he
        unfold partEntries at he
        rcases List.mem_map.mp he with ⟨q, hq, rfl⟩
        intro hh
        have hids : m0.id = m.id := by
          have := hh
          simp [partPathD] at this
          exact this.1
        refine hid0 ?_
        rw [hids]
        exact List.mem_map.mpr ⟨m, h, rfl⟩
      rw [storeLookup_append_of_none _ (storeLookup_of_forall_ne hne2)]
      exact storeLookup_partFlatten m p hpnd hp rest
        ((nodup_map_cons hnd).2) h

theorem mkStore_part_lookup (d : SessionDesc) (hnd : (d.msgs.map MessageDesc.id).Nodup)
    {m : MessageDesc} (hm : m ∈ d.msgs) (hpnd : (m.parts.map PartDesc.id).Nodup)
    {p : PartDesc} (hp : p ∈ m.parts) :
    storeLookup (mkStore d) (partPathD m p) = some (.jsonFile p.content) := by
  rw [mkStore_eq, storeLookup, if_neg (by simp [sessEntryD, sessPathD, partPathD])]
  unfold mkStoreTail
  have hA : storeLookup (d.msgs.map (messageEntry d)) (partPathD m p) = none := by
    refine storeLookup_of_forall_ne ?_
    intro e he
    rcases List.mem_map.mp he with ⟨m2, hm2, rfl⟩
    simp [messageEntry, partPathD]
  have hB := storeLookup_partFlatten m p hpnd hp d.msgs hnd hm
  have hAB : storeLookup (d.msgs.map (messageEntry d) ++
      (d.msgs.map partEntries).flatten) (partPathD m p) = some (.jsonFile p.content) :=
    (storeLookup_append_of_none _ hA).trans hB
  exact storeLookup_append_of_some _ (storeLookup_append_of_some _
    (storeLookup_append_of_some _ hAB))

theorem collectPartFiles_mkStore (d : SessionDesc)
    (hnd : (d.msgs.map MessageDesc.id).Nodup)
    (hpn : ∀ m ∈ d.msgs, (m.parts.map PartDesc.id).Nodup) :
    ∀ (ms : List MessageDesc), (∀ m ∈ ms, m ∈ d.msgs) →
      collectPartFiles (mkStore d) (ms.map MessageDesc.id) =
        (ms.map (fun m => m.parts.map (fun p => (partPathD m p, FileKind.part)))).flatten
  | [], _ => rfl
  | m :: rest, h => by
    rw [List.map_cons, collectPartFiles, List.map_cons, List.flatten_cons]
    have hmem : m ∈ d.msgs := h m (List.mem_cons_self _ _)
    have hrec := collectPartFiles_mkStore d hnd hpn rest
      (fun x hx => h x (List.mem_cons_of_mem _ hx))
    cases hps : m.parts with
    | nil =>
      rw [mkStore_part_dir_not_exists d hnd hmem hps]
      simp only [List.map_nil, Bool.false_eq_true, if_false, List.nil_append]
      exact hrec
    | cons p0 ps =>
      have hex : pathExistsFS (mkStore d) ["storage", "part", m.id] = true :=
        mkStore_part_dir_exists d hmem (by rw [hps]; exact List.mem_cons_self _ _)
      rw [hex, if_pos rfl, childNames_part_dir d hnd hmem (hpn m hmem)]
      have hfilter : (m.parts.map (fun p => p.id ++ ".json")).filter
          (fun f => strEndsWith f ".json") = m.parts.map (fun p => p.id ++ ".json") := by
        refine List.filter_eq_self.mpr ?_
        intro a ha
        rcases List.mem_map.mp ha with ⟨p, hp, rfl⟩
        exact strEndsWith_append_json p.id
      rw [hfilter, List.map_map, hrec, ← hps]
      rfl

theorem mkStore_diff_exists (d : SessionDesc) {j : Json} (hd : d.diff = some j) :
    pathExistsFS (mkStore d) (diffPathD d) = true := by
  refine pathExistsFS_true_of (diffPathD d, .jsonFile j) (diffEntry_mem_mkStore hd) ?_
  simp [stripPrefixSegs_self]

theorem mkStore_diff_not_exists (d : SessionDesc) (hd : d.diff = none) :
    pathExistsFS (mkStore d) (diffPathD d) = false := by
  refine pathExistsFS_false_of ?_
  intro e he
  rw [mkStore_eq] at he
  rcases List.mem_cons.mp he with rfl | he
  · simp [sessEntryD, sessPathD, diffPathD, stripPrefixSegs]
  rcases mem_mkStoreTail_cases he with ⟨m, hm, rfl⟩ | ⟨m, hm, p, hp, rfl⟩ |
    ⟨j, hdj, rfl⟩ | rfl | ⟨s, hs, rfl⟩
  · simp [messageEntry, diffPathD, stripPrefixSegs]
  · simp [partPathD, diffPathD, stripPrefixSegs]
  · rw [hd] at hdj
    exact absurd hdj (by simp)
  · simp [projEntryD, projPathD, diffPathD, stripPrefixSegs]
  · simp [snapEntry, diffPathD, stripPrefixSegs]

theorem mkStore_diff_lookup (d : SessionDesc) {j : Json} (hd : d.diff = some j) :
    storeLookup (mkStore d) (diffPathD d) = some (.jsonFile j) := by
  rw [mkStore_eq, storeLookup, if_neg (by simp [sessEntryD, sessPathD, diffPathD])]
  unfold mkStoreTail
  have hA : storeLookup (d.msgs.map (messageEntry d)) (diffPathD d) = none := by
    refine storeLookup_of_forall_ne ?_
    intro e he
    rcases List.mem_map.mp he with ⟨m2, hm2, rfl⟩
    simp [messageEntry, diffPathD]
  have hB : storeLookup ((d.msgs.map partEntries).flatten) (diffPathD d) = none := by
    refine storeLookup_of_forall_ne ?_
    intro e he
    rcases List.mem_flatten.mp he with ⟨l, hl, hel⟩
    rcases List.mem_map.mp hl with ⟨m2, hm2, hml⟩
    rw [← hml, partEntries] at hel
    rcases List.mem_map.mp hel with ⟨q, hq, rfl⟩
    simp [diffPathD]
  have hC : storeLookup (diffEntries d) (diffPathD d) = some (.jsonFile j) := by
    unfold diffEntries
    rw [hd, storeLookup, if_pos rfl]
  have hAB : storeLookup (d.msgs.map (messageEntry d) ++
      (d.msgs.map partEntries).flatten) (diffPathD d) = none := by
    rw [storeLookup_append_of_none _ hA]
    exact hB
  have hABC : storeLookup (d.msgs.map (messageEntry d) ++
      (d.msgs.map partEntries).flatten ++ diffEntries d) (diffPathD d) =
      some (.jsonFile j) := (storeLookup_append_of_none _ hAB).trans hC
  exact storeLookup_append_of_some _ (storeLookup_append_of_some _ hABC)

theorem mkStore_proj_exists (d : SessionDesc) :
    pathExistsFS (mkStore d) (projPathD d) = true := by
  refine pathExistsFS_true_of (projEntryD d) (projEntry_mem_mkStore d) ?_
  simp [projEntryD, stripPrefixSegs_self]

theorem mkStore_proj_lookup (d : SessionDesc) :
    storeLookup (mkStore d) (projPathD d) = some (.jsonFile (projectDescJson d)) := by
  rw [mkStore_eq, storeLookup, if_neg (by simp [sessEntryD, sessPathD, projPathD])]
  unfold mkStoreTail
  have hA : storeLookup (d.msgs.map (messageEntry d)) (projPathD d) = none := by
    refine storeLookup_of_forall_ne ?_
    intro e he
    rcases List.mem_map.mp he with ⟨m2, hm2, rfl⟩
    simp [messageEntry, projPathD]
  have hB : storeLookup ((d.msgs.map partEntries).flatten) (projPathD d) = none := by
    refine storeLookup_of_forall_ne ?_
    intro e he
    rcases List.mem_flatten.mp he with ⟨l, hl, hel⟩
    rcases List.mem_map.mp hl with ⟨m2, hm2, hml⟩
    rw [← hml, partEntries] at hel
    rcases List.mem_map.mp hel with ⟨q, hq, rfl⟩
    simp [projPathD]
  have hC : storeLookup (diffEntries d) (projPathD d) = none := by
    refine storeLookup_of_forall_ne ?_
    intro e he
    unfold diffEntries at he
    cases hdd : d.diff with
    | some j =>
      rw [hdd] at he
      simp only [List.mem_singleton] at he
      subst he
      simp [diffPathD, projPathD]
    | none =>
      rw [hdd] at he
      simp at he
  have hD : storeLookup ([projEntryD d] : Store) (projPathD d) =
      some (.jsonFile (projectDescJson d)) := by
    rw [storeLookup, if_pos (show (projEntryD d).1 = projPathD d from rfl)]
    rfl
  have hAB : storeLookup (d.msgs.map (messageEntry d) ++
      (d.msgs.map partEntries).flatten) (projPathD d) = none := by
    rw [storeLookup_append_of_none _ hA]
    exact hB
  have hABC : storeLookup (d.msgs.map (messageEntry d) ++
      (d.msgs.map partEntries).flatten ++ diffEntries d) (projPathD d) = none := by
    rw [storeLookup_append_of_none _ hAB]
    exact hC
  have hABCD : storeLookup (d.msgs.map (messageEntry d) ++
      (d.msgs.map partEntries).flatten ++ diffEntries d ++ [projEntryD d]) (projPathD d) =
      some (.jsonFile (projectDescJson d)) := (storeLookup_append_of_none _ hABC).trans hD
  exact storeLookup_append_of_some _ hABCD

theorem mkStore_snapshot_dir_exists (d : SessionDesc) {s : SnapDesc} (hs : s ∈ d.snaps) :
    pathExistsFS (mkStore d) ["snapshot", d.projectId] = true := by
  refine pathExistsFS_true_of (snapEntry d s) (snapEntry_mem_mkStore hs) ?_
  simp [snapEntry, stripPrefixSegs]

theorem mkStore_snapshot_dir_not_exists (d : SessionDesc) (h : d.snaps = []) :
    pathExistsFS (mkStore d) ["snapshot", d.projectId] = false := by
  refine pathExistsFS_false_of ?_
  intro e he
  rw [mkStore_split] at he
  rcases List.mem_append.mp he with he | he
  · rcases storagePartD_storage_shape he with ⟨rest, hrr, _⟩
    rw [hrr]
    simp [stripPrefixSegs]
  · rw [h] at he
    simp at he

theorem storeLookup_snapChunk (d : SessionDesc) (s : SnapDesc) :
    ∀ (ss : List SnapDesc), (ss.map SnapDesc.rel).Nodup → s ∈ ss →
      storeLookup (ss.map (snapEntry d)) (snapEntry d s).1 = some s.content
  | [], _, hs => absurd hs (by simp)
  | s0 :: rest, hnd, hs => by
    rw [List.map_cons, storeLookup]
    rcases List.mem_cons.mp hs with h | h
    · subst h
      rw [if_pos rfl]
      rfl
    · have hrel : s0.rel ∉ rest.map SnapDesc.rel := (nodup_map_cons hnd).1
      have hne : ¬ (snapEntry d s0).1 = (snapEntry d s).1 := by
        intro hh
        have hr2 : s0.rel = s.rel := by simpa [snapEntry] using hh
        refine hrel ?_
        rw [hr2]
        exact List.mem_map.mpr ⟨s, h, rfl⟩
      rw [if_neg hne]
      exact storeLookup_snapChunk d s rest ((nodup_map_cons hnd).2) h

theorem mkStore_snap_lookup (d : SessionDesc) (hsn : (d.snaps.map SnapDesc.rel).Nodup)
    {s : SnapDesc} (hs : s ∈ d.snaps) :
    storeLookup (mkStore d) (snapEntry d s).1 = some s.content := by
  rw [mkStore_split]
  have h0 : storeLookup (storagePartD d) (snapEntry d s).1 = none := by
    refine storeLookup_of_forall_ne ?_
    intro e he
    rcases storagePartD_storage_shape he with ⟨rest, hr, _⟩
    rw [hr]
    simp [snapEntry]
  rw [storeLookup_append_of_none _ h0]
  exact storeLookup_snapChunk d s d.snaps hsn hs

theorem filesUnder_storage_mkStore (d : SessionDesc) :
    filesUnder (mkStore d) ["storage"] = storagePartD d := by
  rw [mkStore_split]
  unfold filesUnder
  rw [List.filter_append]
  have h1 : (storagePartD d).filter (fun e => underDir ["storage"] e.1) =
      storagePartD d := by
    refine List.filter_eq_self.mpr ?_
    intro e he
    rcases storagePartD_storage_shape he with ⟨rest, hr, hrne⟩
    rcases List.exists_cons_of_ne_nil hrne with ⟨x, xs, rfl⟩
    rw [hr]
    simp [underDir, stripPrefixSegs]
  have h2 : (d.snaps.map (snapEntry d)).filter (fun e => underDir ["storage"] e.1) = [] := by
    rw [List.filter_eq_nil_iff]
    intro e he
    rcases List.mem_map.mp he with ⟨s, hs, rfl⟩
    simp [snapEntry, underDir, stripPrefixSegs]
  rw [h1, h2, List.append_nil]

theorem filesUnder_snapshot_mkStore (d : SessionDesc) :
    filesUnder (mkStore d) ["snapshot"] = d.snaps.map (snapEntry d) := by
  rw [mkStore_split]
  unfold filesUnder
  rw [List.filter_append]
  have h1 : (storagePartD d).filter (fun e => underDir ["snapshot"] e.1) = [] := by
    rw [List.filter_eq_nil_iff]
    intro e he
    rcases storagePartD_storage_shape he with ⟨rest, hr, _⟩
    rw [hr]
    simp [underDir, stripPrefixSegs]
  have h2 : (d.snaps.map (snapEntry d)).filter (fun e => underDir ["snapshot"] e.1) =
      d.snaps.map (snapEntry d) := by
    refine List.filter_eq_self.mpr ?_
    intro e he
    rcases List.mem_map.mp he with ⟨s, hs, rfl⟩
    simp [snapEntry, underDir, stripPrefixSegs]
  rw [h1, h2, List.nil_append]

theorem filesUnder_snapshot_pid_mkStore (d : SessionDesc)
    (hr : ∀ s ∈ d.snaps, s.rel ≠ []) :
    filesUnder (mkStore d) ["snapshot", d.projectId] = d.snaps.map (snapEntry d) := by
  rw [mkStore_split]
  unfold filesUnder
  rw [List.filter_append]
  have h1 : (storagePartD d).filter (fun e => underDir ["snapshot", d.projectId] e.1) =
      [] := by
    rw [List.filter_eq_nil_iff]
    intro e he
    rcases storagePartD_storage_shape he with ⟨rest, hrr, _⟩
    rw [hrr]
    simp [underDir, stripPrefixSegs]
  have h2 : (d.snaps.map (snapEntry d)).filter
      (fun e => underDir ["snapshot", d.projectId] e.1) = d.snaps.map (snapEntry d) := by
    refine List.filter_eq_self.mpr ?_
    intro e he
    rcases List.mem_map.mp he with ⟨s, hs, rfl⟩
    rcases List.exists_cons_of_ne_nil (hr s hs) with ⟨x, xs, hrel⟩
    simp [snapEntry, underDir, stripPrefixSegs, hrel]
  rw [h1, h2, List.nil_append]

theorem collectSessionFiles_mkStore (d : SessionDesc) (hwf : d.wf) :
    collectSessionFiles (mkStore d) d.sessionId =
      .ok { sessionId := d.sessionId
            projectId := d.projectId
            title := some d.title
            directory := some d.directory
            files := collectFilesD d } := by
  obtain ⟨hnd, hpn, hsn, hsr⟩ := hwf
  unfold collectSessionFiles
  rw [findSessionFile_mkStore]
  dsimp only
  rw [mkStore_sess_lookup]
  dsimp only
  have hnames : (if pathExistsFS (mkStore d) ["storage", "message", d.sessionId] then
      childNames (mkStore d) ["storage", "message", d.sessionId] else []) =
      d.msgs.map (fun m => m.id ++ ".json") := by
    cases hm : d.msgs with
    | nil =>
      rw [mkStore_msg_dir_not_exists d hm]
      simp
    | cons m0 rest =>
      rw [mkStore_msg_dir_exists d
        (show m0 ∈ d.msgs by rw [hm]; exact List.mem_cons_self _ _)]
      rw [if_pos rfl, childNames_msg_dir d hnd, hm]
  rw [hnames, readMessageFiles_mkStore d hnd d.msgs (fun _ h => h)]
  dsimp only
  have hmsgfiles : (d.msgs.map (fun m => (msgPathD d m, m.id))).map
      (fun x => (x.1, FileKind.message)) =
      d.msgs.map (fun m => (msgPathD d m, FileKind.message)) := by
    rw [List.map_map]
    rfl
  have hmids : (d.msgs.map (fun m => (msgPathD d m, m.id))).map (fun x => x.2) =
      d.msgs.map MessageDesc.id := by
    rw [List.map_map]
    rfl
  rw [hmsgfiles, hmids, collectPartFiles_mkStore d hnd hpn d.msgs (fun _ h => h)]
  have hdiff : (if pathExistsFS (mkStore d)
      ["storage", "session_diff", d.sessionId ++ ".json"] then
      [((["storage", "session_diff", d.sessionId ++ ".json"] : FsPath),
        FileKind.session_diff)] else []) =
      (match d.diff with
       | some _ => [(diffPathD d, FileKind.session_diff)]
       | none => []) := by
    cases hd : d.diff with
    | some j =>
      rw [show (["storage", "session_diff", d.sessionId ++ ".json"] : FsPath) =
        diffPathD d from rfl, mkStore_diff_exists d hd]
      rfl
    | none =>
      rw [show (["storage", "session_diff", d.sessionId ++ ".json"] : FsPath) =
        diffPathD d from rfl, mkStore_diff_not_exists d hd]
      rfl
  rw [hdiff]
  have hproj : (if pathExistsFS (mkStore d)
      ["storage", "project", d.projectId ++ ".json"] then
      [((["storage", "project", d.projectId ++ ".json"] : FsPath), FileKind.project)]
      else []) = [(projPathD d, FileKind.project)] := by
    rw [show (["storage", "project", d.projectId ++ ".json"] : FsPath) =
      projPathD d from rfl, mkStore_proj_exists d]
    rfl
  rw [hproj]
  have hsnap : (if pathExistsFS (mkStore d) ["snapshot", d.projectId] then
      (filesUnder (mkStore d) ["snapshot", d.projectId]).map
        (fun e => (e.1, FileKind.snapshot)) else []) =
      d.snaps.map (fun s => (("snapshot" :: d.projectId :: s.rel : FsPath),
        FileKind.snapshot)) := by
    cases hsl : d.snaps with
    | nil =>
      rw [mkStore_snapshot_dir_not_exists d hsl]
      simp
    | cons s0 srest =>
      rw [mkStore_snapshot_dir_exists d
        (show s0 ∈ d.snaps by rw [hsl]; exact List.mem_cons_self _ _)]
      rw [if_pos rfl, filesUnder_snapshot_pid_mkStore d hsr, hsl, List.map_map]
      rfl
  rw [hsnap]
  rfl

theorem stage_partFlatten (d : SessionDesc) (hnd : (d.msgs.map MessageDesc.id).Nodup)
    (hpn : ∀ m ∈ d.msgs, (m.parts.map PartDesc.id).Nodup) :
    ∀ (ms : List MessageDesc), (∀ m ∈ ms, m ∈ d.msgs) →
      ((ms.map (fun m =>
        m.parts.map (fun p => (partPathD m p, FileKind.part)))).flatten).filterMap
        (fun f => (storeLookup (mkStore d) f.1).map (fun c => (f.1, c))) =
        (ms.map partEntries).flatten
  | [], _ => rfl
  | m :: rest, h => by
    rw [List.map_cons, List.flatten_cons, List.filterMap_append, List.map_cons,
      List.flatten_cons]
    have hmem : m ∈ d.msgs := h m (List.mem_cons_self _ _)
    have h1 : (m.parts.map (fun p => (partPathD m p, FileKind.part))).filterMap
        (fun f => (storeLookup (mkStore d) f.1).map (fun c => (f.1, c))) =
        partEntries m := by
      unfold partEntries
      rw [List.filterMap_map]
      refine filterMap_map_of ?_
      intro p hp
      dsimp only [Function.comp]
      rw [mkStore_part_lookup d hnd hmem (hpn m hmem) hp]
      rfl
    rw [h1, stage_partFlatten d hnd hpn rest (fun x hx => h x (List.mem_cons_of_mem _ hx))]

theorem stageFiles_mkStore (d : SessionDesc) (hwf : d.wf) :
    stageFiles (mkStore d) (collectFilesD d) = mkStore d := by
  obtain ⟨hnd, hpn, hsn, hsr⟩ := hwf
  unfold stageFiles collectFilesD
  rw [List.filterMap_cons]
  have hhead : (storeLookup (mkStore d) (sessPathD d)).map
      (fun c => ((sessPathD d : FsPath), c)) = some (sessEntryD d) := by
    rw [mkStore_sess_lookup]
    rfl
  have hA : (d.msgs.map (fun m => (msgPathD d m, FileKind.message))).filterMap
      (fun f => (storeLookup (mkStore d) f.1).map (fun c => (f.1, c))) =
      d.msgs.map (messageEntry d) := by
    rw [List.filterMap_map]
    refine filterMap_map_of ?_
    intro m hm
    dsimp only [Function.comp]
    rw [mkStore_msg_lookup d hnd hm]
    rfl
  have hB := stage_partFlatten d hnd hpn d.msgs (fun _ h => h)
  have hC : ((match d.diff with
      | some _ => [(diffPathD d, FileKind.session_diff)]
      | none => []) : List (FsPath × FileKind)).filterMap
      (fun f => (storeLookup (mkStore d) f.1).map (fun c => (f.1, c))) =
      diffEntries d := by
    cases hd : d.diff with
    | some j =>
      rw [List.filterMap_cons]
      have hl : (storeLookup (mkStore d) (diffPathD d)).map
          (fun c => ((diffPathD d : FsPath), c)) = some ((diffPathD d : FsPath),
            FileContent.jsonFile j) := by
        rw [mkStore_diff_lookup d hd]
        rfl
      simp only [hl]
      unfold diffEntries
      rw [hd]
      rfl
    | none =>
      unfold diffEntries
      rw [hd]
      rfl
  have hD : ([(projPathD d, FileKind.project)] : List (FsPath × FileKind)).filterMap
      (fun f => (storeLookup (mkStore d) f.1).map (fun c => (f.1, c))) =
      [projEntryD d] := by
    rw [List.filterMap_cons]
    have hl : (storeLookup (mkStore d) (projPathD d)).map
        (fun c => ((projPathD d : FsPath), c)) = some (projEntryD d) := by
      rw [mkStore_proj_lookup d]
      rfl
    simp only [hl]
    rfl
  have hE : (d.snaps.map (fun s => (("snapshot" :: d.projectId :: s.rel : FsPath),
      FileKind.snapshot))).filterMap
      (fun f => (storeLookup (mkStore d) f.1).map (fun c => (f.1, c))) =
      d.snaps.map (snapEntry d) := by
    rw [List.filterMap_map]
    refine filterMap_map_of ?_
    intro s hs
    dsimp only [Function.comp]
    rw [show ("snapshot" :: d.projectId :: s.rel : FsPath) = (snapEntry d s).1 from rfl,
      mkStore_snap_lookup d hsn hs]
    rfl
  rw [List.filterMap_append, List.filterMap_append, List.filterMap_append,
    List.filterMap_append, hA, hB, hC, hD, hE]
  simp only [hhead]
  rfl

theorem storagePartD_length (d : SessionDesc) :
    (storagePartD d).length = 1 + d.msgs.length + totalParts d + diffCountD d + 1 := by
  cases hd : d.diff <;>
    simp [storagePartD, totalParts, diffCountD, diffEntries, hd, List.length_flatten,
      List.map_map, Function.comp_def, partEntries, List.length_map] <;>
    omega

theorem mkStore_storage_exists (d : SessionDesc) :
    pathExistsFS (mkStore d) ["storage"] = true := by
  refine pathExistsFS_true_of (sessEntryD d) ?_
    (by simp [sessEntryD, sessPathD, stripPrefixSegs])
  rw [mkStore_eq]
  exact List.mem_cons_self _ _

theorem findArchiveSession_mkStore (d : SessionDesc) :
    findArchiveSession (mkStore d) =
      .ok { id := d.sessionId, projectID := d.projectId
            title := some d.title, directory := some d.directory } := by
  unfold findArchiveSession
  rw [childNames_session_dir]
  have hstep : (childNames (mkStore d) ["storage", "session", d.projectId]).find?
      (fun f => strEndsWith f ".json") = some (d.sessionId ++ ".json") := by
    rw [childNames_session_pid_dir]
    exact List.find?_cons_of_pos _ (strEndsWith_append_json d.sessionId)
  simp only [List.findSome?_cons, hstep]
  dsimp only [Option.map]
  rw [show (["storage", "session", d.projectId, d.sessionId ++ ".json"] : FsPath) =
    sessPathD d from rfl, mkStore_sess_lookup]
  dsimp only
  rfl

theorem sessionImportTransform_sess (d : SessionDesc) :
    sessionImportTransform (sessPathD d) (.jsonFile (sessionDescJson d)) =
      .jsonFile (markTitleImported (sessionDescJson d)) := by
  unfold sessionImportTransform
  have hc : ((sessPathD d).dropLast.contains "session" &&
      strEndsWith (lastName (sessPathD d)) ".json") = true := by
    rw [show lastName (sessPathD d) = d.sessionId ++ ".json" from rfl,
      strEndsWith_append_json]
    rfl
  rw [hc, if_pos rfl]

theorem copyWrittenContent_sess (d : SessionDesc) :
    copyWrittenContent (some sessionImportTransform) (sessPathD d)
      (.jsonFile (sessionDescJson d)) =
      .jsonFile (markTitleImported (sessionDescJson d)) := by
  unfold copyWrittenContent
  dsimp only
  rw [show lastName (sessPathD d) = d.sessionId ++ ".json" from rfl,
    strEndsWith_append_json, if_pos rfl]
  exact sessionImportTransform_sess d

theorem mergePhase_mkStore_sess_lookup (d : SessionDesc) :
    storeLookup (mergePhase (mkStore d) []).2 (sessPathD d) =
      some (.jsonFile (markTitleImported (sessionDescJson d))) := by
  unfold mergePhase
  dsimp only
  rw [mkStore_storage_exists, if_pos rfl, filesUnder_storage_mkStore]
  have h1 : storeLookup (copyDirRecursive (some sessionImportTransform)
      (storagePartD d) []).2 (sessPathD d) =
      some (.jsonFile (markTitleImported (sessionDescJson d))) := by
    rw [show storagePartD d = ((sessPathD d, FileContent.jsonFile (sessionDescJson d)) :
      FsPath × FileContent) :: (d.msgs.map (messageEntry d) ++
      (d.msgs.map partEntries).flatten ++ diffEntries d ++ [projEntryD d]) from rfl]
    rw [copyDirRecursive_head_fresh _ _ _ _ [] rfl]
    rw [copyWrittenContent_sess]
  by_cases h2 : pathExistsFS (mkStore d) ["snapshot"] = true
  · rw [h2, if_pos rfl]
    exact copyDirRecursive_preserves _ _ _ h1
  · rw [if_neg h2]
    exact h1

theorem mergePhase_mkStore_count (d : SessionDesc) :
    (mergePhase (mkStore d) []).1 =
      d.msgs.length + totalParts d + diffCountD d + 1 + 1 + d.snaps.length := by
  rw [mergePhase_count, filesUnder_storage_mkStore, filesUnder_snapshot_mkStore,
    storagePartD_length, List.length_map]
  omega

theorem extract_mkStore (v : String → Bool) (d : SessionDesc) :
    extractSessionArchive v (mkStore d) [] none =
      .ok ({ success := true
             sessionId := d.sessionId
             sessionTitle := getStrField (markTitleImported (sessionDescJson d)) "title"
             fileCount := d.msgs.length + totalParts d + diffCountD d + 1 + 1 +
               d.snaps.length
             pathRemapped := false
             originalPath := some d.directory
             newPath := none }, (mergePhase (mkStore d) []).2) := by
  unfold extractSessionArchive
  rw [findArchiveSession_mkStore d]
  dsimp only
  rw [show remapStage v (mkStore d)
      { id := d.sessionId, projectID := d.projectId,
        title := some d.title, directory := some d.directory } none =
      .ok (mkStore d, false, none) from rfl]
  dsimp only
  have hlk := mergePhase_mkStore_sess_lookup d
  have hex : pathExistsFS (mergePhase (mkStore d) []).2 (sessPathD d) = true :=
    pathExistsFS_of_lookup hlk
  rw [show (["storage", "session", d.projectId, d.sessionId ++ ".json"] : FsPath) =
    sessPathD d from rfl]
  unfold finalTitleRead
  rw [hex, if_pos rfl, hlk]
  dsimp only
  rw [mergePhase_mkStore_count d]

theorem createSessionArchive_mkStore (d : SessionDesc) (hwf : d.wf) (date : String) :
    createSessionArchive (mkStore d) date d.sessionId =
      .ok { archiveId := date ++ "-" ++ toKebabCase (archiveSlugBase (some d.title))
            files := mkStore d } := by
  unfold createSessionArchive
  rw [collectSessionFiles_mkStore d hwf]
  dsimp only
  rw [stageFiles_mkStore d hwf]

theorem marker_isPrefix (t : String) :
    strStartsWith ("[IMPORTED] " ++ t) "[IMPORTED]" = true := rfl

theorem markTitleImported_sessionDescJson (d : SessionDesc) (ht1 : ¬ d.title = "")
    (ht2 : strStartsWith d.title "[IMPORTED]" = false) :
    markTitleImported (sessionDescJson d) = markedSessionJson d := by
  unfold markTitleImported sessionDescJson
  dsimp only
  rw [show objLookup (.cons "id" (.str d.sessionId) (.cons "projectID" (.str d.projectId)
    (.cons "title" (.str d.title) (.cons "directory" (.str d.directory) .nil)))) "title" =
    some (.str d.title) from rfl]
  dsimp only
  have hcond : (!decide (d.title = "") && !strStartsWith d.title "[IMPORTED]") = true := by
    rw [decide_eq_false ht1, ht2]
    rfl
  rw [hcond, if_pos rfl]
  rfl

theorem buildThenExtract_mkStore (v : String → Bool) (d : SessionDesc) (hwf : d.wf)
    (date : String) :
    buildThenExtract v d date =
      some ({ archiveId := date ++ "-" ++ toKebabCase (archiveSlugBase (some d.title))
              files := mkStore d },
        { success := true
          sessionId := d.sessionId
          sessionTitle := getStrField (markTitleImported (sessionDescJson d)) "title"
          fileCount := d.msgs.length + totalParts d + diffCountD d + 1 + 1 +
            d.snaps.length
          pathRemapped := false
          originalPath := some d.directory
          newPath := none }, (mergePhase (mkStore d) []).2) := by
  unfold buildThenExtract
  rw [createSessionArchive_mkStore d hwf date]
  dsimp only
  rw [extract_mkStore v d]

/-- Claim C2: for every well-formed described session with N messages
and M parts, extracting the archive built from that session into an
empty destination store succeeds and reports a fileCount equal to
N + M + (1 if a diff-set document is present) + 1 for the session
document + 1 for the project document + the number of snapshot files. -/
theorem c2_roundtrip_fileCount (v : String → Bool) (d : SessionDesc) (date : String)
    (hwf : d.wf) :
    ∃ b r st, buildThenExtract v d date = some (b, r, st) ∧
      r.fileCount = d.msgs.length + totalParts d + diffCountD d + 1 + 1 +
        d.snaps.length :=
  ⟨_, _, _, buildThenExtract_mkStore v d hwf date, rfl⟩

/-- Witness for C2: the fixture session (2 messages, 1 part, a diff-set
document and 1 snapshot file) reports fileCount 2 + 1 + 1 + 1 + 1 + 1 = 7. -/
theorem c2_witness :
    fixtureDesc.wf ∧
    ∃ b r st, buildThenExtract (fun _ => true) fixtureDesc "2025-01-15" =
        some (b, r, st) ∧
      r.fileCount = fixtureDesc.msgs.length + totalParts fixtureDesc +
        diffCountD fixtureDesc + 1 + 1 + fixtureDesc.snaps.length := by
  have hw : fixtureDesc.wf := by
    unfold SessionDesc.wf
    exact ⟨by decide, by decide, by decide, by decide⟩
  exact ⟨hw, c2_roundtrip_fileCount (fun _ => true) fixtureDesc "2025-01-15" hw⟩

/-- Counterexample for C7: when the destination already holds the session
file, extraction skips it without rewriting its title, so the on-disk
title and the reported sessionTitle keep the unmarked original, contrary
to the claim that the marker is applied whether the file was freshly
written or already present. -/
theorem c7_counterexample :
    extractSessionArchive (fun _ => true) c7Archive c7Store none =
      .ok (c7Result, c7Store) ∧
    c7Result.sessionTitle = some "Hello" ∧
    storeLookup c7Store ["storage", "session", "p1", "s1.json"] =
      some (.jsonFile c7SessionJson) ∧
    getStrField c7SessionJson "title" = some "Hello" ∧
    strStartsWith "Hello" "[IMPORTED]" = false :=
  ⟨rfl, rfl, rfl, rfl, rfl⟩

/-- Claim C7 (amended): for a well-formed described session whose title
is truthy and not already marked, building its archive and extracting it
twice into an initially empty destination writes the session document
with the marker applied exactly once: both runs report the marked title,
the destination document carries it, and the marker is a prefix of the
reported title.  (When the session file already exists at the
destination before extraction, it is skipped and left unmarked.) -/
theorem c7_amended (v : String → Bool) (d : SessionDesc) (date : String) (hwf : d.wf)
    (ht1 : ¬ d.title = "") (ht2 : strStartsWith d.title "[IMPORTED]" = false) :
    ∃ r1 r2 st, buildThenExtractTwice v d date = some (r1, r2, st) ∧
      r1.sessionTitle = some ("[IMPORTED] " ++ d.title) ∧
      r2.sessionTitle = some ("[IMPORTED] " ++ d.title) ∧
      storeLookup st (sessPathD d) = some (.jsonFile (markedSessionJson d)) ∧
      strStartsWith ("[IMPORTED] " ++ d.title) "[IMPORTED]" = true := by
  have hbe := buildThenExtract_mkStore v d hwf date
  have hcore := extract_idempotent_core v (mkStore d) [] none _ _
    (mkStore_shape d) (extract_mkStore v d)
  unfold buildThenExtractTwice
  rw [hbe]
  dsimp only
  rw [hcore.2.1]
  dsimp only
  refine ⟨_, _, _, rfl, ?_, ?_, ?_, marker_isPrefix d.title⟩
  · show getStrField (markTitleImported (sessionDescJson d)) "title" =
      some ("[IMPORTED] " ++ d.title)
    rw [markTitleImported_sessionDescJson d ht1 ht2]
    rfl
  · show getStrField (markTitleImported (sessionDescJson d)) "title" =
      some ("[IMPORTED] " ++ d.title)
    rw [markTitleImported_sessionDescJson d ht1 ht2]
    rfl
  · show storeLookup (mergePhase (mkStore d) []).2 (sessPathD d) =
      some (.jsonFile (markedSessionJson d))
    rw [mergePhase_mkStore_sess_lookup d, markTitleImported_sessionDescJson d ht1 ht2]

/-- Witness for C7 (amended): the fixture session, titled `Fix bug`,
extracted twice from an empty destination reports and stores the title
`[IMPORTED] Fix bug`. -/
theorem c7_witness :
    fixtureDesc.wf ∧ ¬ fixtureDesc.title = "" ∧
    strStartsWith fixtureDesc.title "[IMPORTED]" = false ∧
    (∃ r1 r2 st, buildThenExtractTwice (fun _ => true) fixtureDesc "2025-01-15" =
        some (r1, r2, st) ∧
      r1.sessionTitle = some ("[IMPORTED] " ++ fixtureDesc.title) ∧
      r2.sessionTitle = some ("[IMPORTED] " ++ fixtureDesc.title) ∧
      storeLookup st (sessPathD fixtureDesc) =
        some (.jsonFile (markedSessionJson fixtureDesc)) ∧
      strStartsWith ("[IMPORTED] " ++ fixtureDesc.title) "[IMPORTED]" = true) := by
  have hw : fixtureDesc.wf := by
    unfold SessionDesc.wf
    exact ⟨by decide, by decide, by decide, by decide⟩
  exact ⟨hw, by decide, by decide,
    c7_amended (fun _ => true) fixtureDesc "2025-01-15" hw (by decide) (by decide)⟩
